import Mathlib

/-!
Verification of the `taho_routes` library: a spatial graph container
(`SpaceNetwork`) storing 3-D locations, with mutation operations
(`add_location`, `move_location`, `connect_directed`,
`connect_bidirectional`), read operations (`location`, `neighbors`) and a
Dijkstra shortest-route search (`shortest_route`).

The machine floats (`f64`) of the source are idealised as elements of a
linear ordered field; the concrete instantiation used by the top-level
statements is `ℝ`, with the Euclidean distance `Point3.distance_to`
written with `Real.sqrt`.  The development is generic in the field and in
the distance function so that executions can also be traced over `ℚ`.

The source's `LocationId(usize)` newtype is modelled as a bare `Nat`
(equality and ordering of handles are by index in the source as well).
The source's `Err("invalid LocationId")` static string is modelled by the
error value `NetError.invalidHandle`.  Mutating methods on `&mut self`
returning `Result<(), &str>` are modelled as functions returning the pair
of the `Except` result and the (possibly updated) container.
-/

set_option linter.unusedSectionVars false
set_option linter.unnecessarySimpa false

variable {α : Type} [LinearOrderedField α]

/-- A point in 3-D Euclidean space (source: `struct Point3 { x, y, z : f64 }`). -/
structure Point3 (α : Type) where
  x : α
  y : α
  z : α
deriving Repr, DecidableEq

instance : Inhabited (Point3 α) := ⟨⟨0, 0, 0⟩⟩

/-- A fixed location in space (source: `struct Location { id, position }`). -/
structure Location (α : Type) where
  id : Nat
  position : Point3 α
deriving Repr

instance : Inhabited (Location α) := ⟨⟨0, default⟩⟩

/-- A route: ordered sequence of location handles plus its total distance
(source: `struct Route { locations, total_distance }`). -/
structure Route (α : Type) where
  locations : List Nat
  total_distance : α
deriving Repr

/-- Source: `Route::new`. -/
def Route.mkRoute (locations : List Nat) (total_distance : α) : Route α :=
  ⟨locations, total_distance⟩

/-- Source: `Route::singleton` — a degenerate route staying at one location. -/
def Route.singleton (id : Nat) : Route α :=
  ⟨[id], 0⟩

/-- Source: `Route::len`. -/
def Route.len (r : Route α) : Nat := r.locations.length

/-- Source: `Route::is_empty`. -/
def Route.isEmptyRoute (r : Route α) : Bool := r.locations.isEmpty

/-- Error value modelling the source's `Err("invalid LocationId")`. -/
inductive NetError where
  | invalidHandle
deriving Repr, DecidableEq

/-- A network of locations connected by (directed) edges
(source: `struct SpaceNetwork { locations: Vec<Location>, adjacency: Vec<Vec<LocationId>> }`). -/
structure SpaceNetwork (α : Type) where
  locations : List (Location α)
  adjacency : List (List Nat)
deriving Repr

/-- In-place update of the `i`-th entry of a list, modelling `vec[i] = …` /
`vec[i].push(…)` writes of the source (no-op out of range; the source
would panic there, and the bounds are established separately). -/
def listUpdate (l : List β) (i : Nat) (f : β → β) : List β :=
  match l, i with
  | [], _ => []
  | a :: t, 0 => f a :: t
  | a :: t, i + 1 => a :: listUpdate t i f

@[simp] theorem listUpdate_nil (i : Nat) (f : β → β) : listUpdate [] i f = [] := rfl

@[simp] theorem listUpdate_cons_zero (a : β) (t : List β) (f : β → β) :
    listUpdate (a :: t) 0 f = f a :: t := rfl

@[simp] theorem listUpdate_cons_succ (a : β) (t : List β) (i : Nat) (f : β → β) :
    listUpdate (a :: t) (i + 1) f = a :: listUpdate t i f := rfl

@[simp] theorem length_listUpdate (l : List β) (i : Nat) (f : β → β) :
    (listUpdate l i f).length = l.length := by
  induction l generalizing i with
  | nil => rfl
  | cons a t ih =>
    cases i with
    | zero => rfl
    | succ i => simp [listUpdate, ih]

theorem getD_listUpdate_self (l : List β) (i : Nat) (f : β → β) (d : β)
    (h : i < l.length) : (listUpdate l i f).getD i d = f (l.getD i d) := by
  induction l generalizing i with
  | nil => simp at h
  | cons a t ih =>
    cases i with
    | zero => simp
    | succ i =>
      simp only [listUpdate_cons_succ, List.getD_cons_succ]
      exact ih i (by simpa using h)

theorem getD_listUpdate_ne (l : List β) (i j : Nat) (f : β → β) (d : β)
    (h : i ≠ j) : (listUpdate l i f).getD j d = l.getD j d := by
  induction l generalizing i j with
  | nil => rfl
  | cons a t ih =>
    cases i with
    | zero =>
      cases j with
      | zero => exact absurd rfl h
      | succ j => simp
    | succ i =>
      cases j with
      | zero => simp
      | succ j =>
        simp only [listUpdate_cons_succ, List.getD_cons_succ]
        exact ih i j (fun e => h (by omega))

theorem get?_listUpdate_ne (l : List β) (i j : Nat) (f : β → β)
    (h : i ≠ j) : (listUpdate l i f).get? j = l.get? j := by
  induction l generalizing i j with
  | nil => rfl
  | cons a t ih =>
    cases i with
    | zero =>
      cases j with
      | zero => exact absurd rfl h
      | succ j => simp
    | succ i =>
      cases j with
      | zero => simp
      | succ j =>
        simpa using ih i j (fun e => h (by omega))

namespace SpaceNetwork

/-- Source: `SpaceNetwork::new` — the empty network. -/
def new : SpaceNetwork α := ⟨[], []⟩

/-- Source: `SpaceNetwork::location_count`. -/
def location_count (net : SpaceNetwork α) : Nat := net.locations.length

/-- Source: `SpaceNetwork::is_valid` — a handle is valid iff its index is
below the number of stored locations. -/
def is_valid (net : SpaceNetwork α) (id : Nat) : Bool :=
  decide (id < net.locations.length)

theorem is_valid_iff (net : SpaceNetwork α) (id : Nat) :
    net.is_valid id = true ↔ id < net.locations.length := by
  simp [is_valid]

/-- Source: `SpaceNetwork::add_location` — append a fresh location with an
empty adjacency list; the new handle is the previous count. -/
def add_location (net : SpaceNetwork α) (position : Point3 α) :
    SpaceNetwork α × Nat :=
  let id := net.locations.length
  ({ locations := net.locations ++ [{ id := id, position := position }],
     adjacency := net.adjacency ++ [[]] }, id)

/-- Source: `SpaceNetwork::move_location` — overwrite the stored position of
a valid handle; `InvalidHandle` otherwise. -/
def move_location (net : SpaceNetwork α) (id : Nat) (newPosition : Point3 α) :
    Except NetError Unit × SpaceNetwork α :=
  if net.is_valid id then
    (Except.ok (),
      { net with
        locations := listUpdate net.locations id
          (fun loc => { loc with position := newPosition }) })
  else
    (Except.error NetError.invalidHandle, net)

/-- Source: `SpaceNetwork::location` — read access (`Vec::get`). -/
def location (net : SpaceNetwork α) (id : Nat) : Option (Location α) :=
  net.locations.get? id

/-- Source: `SpaceNetwork::connect_bidirectional` — validate both handles,
ignore self-edges, otherwise push each endpoint on the other's adjacency
list. -/
def connect_bidirectional (net : SpaceNetwork α) (a b : Nat) :
    Except NetError Unit × SpaceNetwork α :=
  if ¬ (net.is_valid a ∧ net.is_valid b) then
    (Except.error NetError.invalidHandle, net)
  else if a = b then
    (Except.ok (), net)
  else
    (Except.ok (),
      { net with
        adjacency :=
          listUpdate (listUpdate net.adjacency a (fun l => l ++ [b])) b
            (fun l => l ++ [a]) })

/-- Source: `SpaceNetwork::connect_directed` — validate both handles, ignore
self-edges, otherwise push `toId` on `fromId`'s adjacency list. -/
def connect_directed (net : SpaceNetwork α) (fromId toId : Nat) :
    Except NetError Unit × SpaceNetwork α :=
  if ¬ (net.is_valid fromId ∧ net.is_valid toId) then
    (Except.error NetError.invalidHandle, net)
  else if fromId = toId then
    (Except.ok (), net)
  else
    (Except.ok (),
      { net with
        adjacency := listUpdate net.adjacency fromId (fun l => l ++ [toId]) })

/-- Source: `SpaceNetwork::neighbors` — the stored out-adjacency of a valid
handle, absence otherwise. -/
def neighbors (net : SpaceNetwork α) (id : Nat) : Option (List Nat) :=
  if net.is_valid id then some (net.adjacency.getD id []) else none

/-- Structural invariant of the container (spec §3 "Invariants"): the two
vectors have equal length, the location stored at index `i` carries id
`i`, and all stored adjacency entries are valid handles. -/
def WF (net : SpaceNetwork α) : Prop :=
  net.adjacency.length = net.locations.length ∧
  (∀ i, i < net.locations.length → (net.locations.getD i default).id = i) ∧
  (∀ l ∈ net.adjacency, ∀ v ∈ l, v < net.locations.length)

/-- The states of a container reachable through its public constructor and
mutation operations (the Rust fields are private, so these are the only
states a caller can ever observe). -/
inductive Built : SpaceNetwork α → Prop where
  | new : Built SpaceNetwork.new
  | add {net : SpaceNetwork α} {p : Point3 α} :
      Built net → Built (net.add_location p).1
  | move {net : SpaceNetwork α} {id : Nat} {p : Point3 α} :
      Built net → Built (net.move_location id p).2
  | connectD {net : SpaceNetwork α} {a b : Nat} :
      Built net → Built (net.connect_directed a b).2
  | connectB {net : SpaceNetwork α} {a b : Nat} :
      Built net → Built (net.connect_bidirectional a b).2

end SpaceNetwork

/-! ## The Dijkstra search (source: `SpaceNetwork::shortest_route`)

The search state is the `dist` vector (`f64::INFINITY` modelled by
`⊤ : WithTop α`; every stored cost that is not `⊤` is finite), the `prev`
vector, and the `BinaryHeap` frontier modelled as a list of entries whose
pop operation removes the maximum element in the source's `Ord` for
`State`: smaller cost wins, and among equal costs the larger handle index
wins (`other.cost.cmp(&self.cost).then_with(|| self.position.cmp(&other.position))`
on a max-heap).  The Rust `while let Some(..) = heap.pop()` loop with its
`break` is modelled by a step function plus a `done` flag and a fuel-indexed
iterator; the fuel is an upper bound on the number of loop iterations that
is proved sufficient below. -/

/-- Internal state for the Dijkstra priority queue (source: `struct State`). -/
structure State (α : Type) where
  cost : α
  position : Nat
deriving Repr, DecidableEq

/-- Pop the entry the source's `BinaryHeap` pops: minimal cost, ties broken
towards the larger handle index (see the module comment above). -/
def heapPop : List (State α) → Option (State α × List (State α))
  | [] => none
  | s :: rest =>
    match heapPop rest with
    | none => some (s, [])
    | some (t, rem) =>
      if t.cost < s.cost ∨ (t.cost = s.cost ∧ s.position < t.position) then
        some (t, s :: rem)
      else
        some (s, rest)

/-- Current position of a handle (source: `self.locations[i].position`). -/
def posAt (net : SpaceNetwork α) (i : Nat) : Point3 α :=
  (net.locations.getD i default).position

/-- Weight of the directed edge `u → v`: the distance between the endpoints'
current positions (source: `distance_to` applied at relaxation time). -/
def edgeW (d : Point3 α → Point3 α → α) (net : SpaceNetwork α) (u v : Nat) : α :=
  d (posAt net u) (posAt net v)

/-- Mutable state of the search loop.  `done` records that the Rust loop has
exited (either `heap.pop()` returned `None` or the goal was popped). -/
structure DState (α : Type) where
  dist : List (WithTop α)
  prev : List (Option Nat)
  heap : List (State α)
  done : Bool

/-- `dist[i]` (in-range by the established invariants). -/
def dGet (l : List (WithTop α)) (i : Nat) : WithTop α := l.getD i ⊤

/-- `prev[i]` (in-range by the established invariants). -/
def pGet (l : List (Option Nat)) (i : Nat) : Option Nat := l.getD i none

/-- One relaxation (source: body of `for &neighbor in &self.adjacency[idx]`):
compute the edge length from the current positions, and on strict
improvement update `dist`, `prev` and push the new frontier entry. -/
def relaxOne (d : Point3 α → Point3 α → α) (net : SpaceNetwork α)
    (u : Nat) (c : α) (st : DState α) (v : Nat) : DState α :=
  let next : α := c + edgeW d net u v
  if (next : WithTop α) < dGet st.dist v then
    { st with
      dist := listUpdate st.dist v (fun _ => (next : WithTop α))
      prev := listUpdate st.prev v (fun _ => some u)
      heap := ⟨next, v⟩ :: st.heap }
  else st

/-- One iteration of the source's `while let Some(State { cost, position })`
loop: pop, skip stale entries (`cost.0 > dist[idx]`), break at the goal,
otherwise relax all outgoing edges. -/
def dijkstraStep (d : Point3 α → Point3 α → α) (net : SpaceNetwork α)
    (goal : Nat) (st : DState α) : DState α :=
  match heapPop st.heap with
  | none => { st with done := true }
  | some (s, rest) =>
    if dGet st.dist s.position < (s.cost : WithTop α) then
      { st with heap := rest }
    else if s.position = goal then
      { st with heap := rest, done := true }
    else
      (net.adjacency.getD s.position []).foldl
        (relaxOne d net s.position s.cost) { st with heap := rest }

/-- Fuel-indexed iteration of `dijkstraStep`; once `done` is set the state is
frozen (the Rust loop has exited). -/
def dijkstraRun (d : Point3 α → Point3 α → α) (net : SpaceNetwork α)
    (goal : Nat) : Nat → DState α → DState α
  | 0, st => st
  | fuel + 1, st =>
    if st.done then st
    else dijkstraRun d net goal fuel (dijkstraStep d net goal st)

/-- Path reconstruction (source: `while let Some(id) = current` walking the
`prev` links from the goal); the fuel `n` is proved sufficient below. -/
def follow (prev : List (Option Nat)) : Nat → Nat → List Nat
  | 0, v => [v]
  | fuel + 1, v =>
    match pGet prev v with
    | none => [v]
    | some u => v :: follow prev fuel u

/-- Total number of stored adjacency entries. -/
def degSum (net : SpaceNetwork α) : Nat :=
  ∑ i ∈ Finset.range net.adjacency.length, (net.adjacency.getD i []).length

/-- Fuel sufficient for the search loop (proved below): one iteration per
frontier insertion, and at most `1 + degSum` insertions ever happen. -/
def searchFuel (net : SpaceNetwork α) : Nat :=
  net.locations.length + degSum net + 2

/-- The search, generic in the distance function `d` (the source fixes
`d := Point3::distance_to`; see `SpaceNetwork.shortest_route`). -/
def shortestRouteAux (d : Point3 α → Point3 α → α) (net : SpaceNetwork α)
    (start goal : Nat) : Option (Route α) :=
  if !(net.is_valid start) || !(net.is_valid goal) then none
  else if start = goal then some (Route.singleton start)
  else
    let n := net.locations.length
    let st0 : DState α :=
      { dist := listUpdate (List.replicate n (⊤ : WithTop α)) start (fun _ => ((0 : α) : WithTop α))
        prev := List.replicate n none
        heap := [⟨0, start⟩]
        done := false }
    let stF := dijkstraRun d net goal (searchFuel net) st0
    let gd := dGet stF.dist goal
    if h : gd = ⊤ then none
    else some ⟨(follow stF.prev n goal).reverse, gd.untop h⟩

/-- Taxicab distance over `ℚ`, used only to trace concrete executions of the
generic search over an executable field. -/
def taxiQ (p q : Point3 ℚ) : ℚ :=
  |p.x - q.x| + |p.y - q.y| + |p.z - q.z|

/-! ## Container operation lemmas -/

theorem mem_listUpdate {l : List β} {i : Nat} {f : β → β} {x : β}
    (h : x ∈ listUpdate l i f) : x ∈ l ∨ ∃ y ∈ l, x = f y := by
  induction l generalizing i with
  | nil => simp [listUpdate] at h
  | cons a t ih =>
    cases i with
    | zero =>
      rcases (by simpa using h : x = f a ∨ x ∈ t) with h | h
      · exact Or.inr ⟨a, by simp, h⟩
      · exact Or.inl (by simp [h])
    | succ i =>
      rcases (by simpa using h : x = a ∨ x ∈ listUpdate t i f) with h | h
      · exact Or.inl (by simp [h])
      · rcases ih h with h | ⟨y, hy, hxy⟩
        · exact Or.inl (by simp [h])
        · exact Or.inr ⟨y, by simp [hy], hxy⟩

namespace SpaceNetwork

theorem is_valid_of_lt {net : SpaceNetwork α} {id : Nat}
    (h : id < net.locations.length) : net.is_valid id = true :=
  (is_valid_iff net id).mpr h

theorem not_is_valid {net : SpaceNetwork α} {id : Nat}
    (h : ¬ id < net.locations.length) : net.is_valid id = false := by
  simp [is_valid, h]

/-- `connect_directed(a,b)` followed by `connect_directed(b,a)`, the second
call performed only when the first succeeds.  This definition follows the
spec's wording for `connect_bidirectional` ("on success, equivalent to
`connect_directed(a,b)` followed by `connect_directed(b,a)`"); it is the
comparison point for the refinement claim about `connect_bidirectional`. -/
def connectDirectedTwice (net : SpaceNetwork α) (a b : Nat) :
    Except NetError Unit × SpaceNetwork α :=
  match net.connect_directed a b with
  | (Except.ok _, net1) => net1.connect_directed b a
  | (Except.error e, net1) => (Except.error e, net1)

theorem connect_bidirectional_eq_twice (net : SpaceNetwork α) (a b : Nat) :
    net.connect_bidirectional a b = connectDirectedTwice net a b := by
  by_cases ha : net.is_valid a = true
  · by_cases hb : net.is_valid b = true
    · by_cases hab : a = b
      · subst hab
        simp [connect_bidirectional, connectDirectedTwice, connect_directed, ha, hb]
      · have hval : ¬ ¬ (net.is_valid a = true ∧ net.is_valid b = true) := by
          simp [ha, hb]
        simp only [connect_bidirectional, connectDirectedTwice, connect_directed,
          ha, hb, hab, and_self, not_true_eq_false, if_false, if_neg hab]
        have hba : ¬ b = a := fun h => hab h.symm
        have ha' : a < net.locations.length := by simpa [is_valid] using ha
        have hb' : b < net.locations.length := by simpa [is_valid] using hb
        simp [hba, is_valid, ha', hb']
    · simp [connect_bidirectional, connectDirectedTwice, connect_directed, ha, hb]
  · simp [connect_bidirectional, connectDirectedTwice, connect_directed, ha]

theorem connect_directed_self {net : SpaceNetwork α} {x : Nat}
    (h : x < net.locations.length) :
    net.connect_directed x x = (Except.ok (), net) := by
  simp [connect_directed, is_valid_of_lt h]

theorem connect_bidirectional_self {net : SpaceNetwork α} {x : Nat}
    (h : x < net.locations.length) :
    net.connect_bidirectional x x = (Except.ok (), net) := by
  simp [connect_bidirectional, is_valid_of_lt h]

/-! Invalid-handle behaviour (read operations return `none`, mutations return
`InvalidHandle` and keep the container unchanged). -/

theorem neighbors_invalid {net : SpaceNetwork α} {id : Nat}
    (h : ¬ id < net.locations.length) : net.neighbors id = none := by
  simp [neighbors, not_is_valid h]

theorem location_invalid {net : SpaceNetwork α} {id : Nat}
    (h : ¬ id < net.locations.length) : net.location id = none := by
  simp [location, List.get?_eq_none]
  omega

theorem shortestRouteAux_invalid_start {d : Point3 α → Point3 α → α}
    {net : SpaceNetwork α} {s g : Nat} (h : ¬ s < net.locations.length) :
    shortestRouteAux d net s g = none := by
  simp [shortestRouteAux, not_is_valid h]

theorem shortestRouteAux_invalid_goal {d : Point3 α → Point3 α → α}
    {net : SpaceNetwork α} {s g : Nat} (h : ¬ g < net.locations.length) :
    shortestRouteAux d net s g = none := by
  simp [shortestRouteAux, not_is_valid h]

theorem move_location_invalid {net : SpaceNetwork α} {id : Nat} {p : Point3 α}
    (h : ¬ id < net.locations.length) :
    net.move_location id p = (Except.error NetError.invalidHandle, net) := by
  simp [move_location, not_is_valid h]

theorem connect_directed_invalid_left {net : SpaceNetwork α} {a b : Nat}
    (h : ¬ a < net.locations.length) :
    net.connect_directed a b = (Except.error NetError.invalidHandle, net) := by
  simp [connect_directed, not_is_valid h]

theorem connect_directed_invalid_right {net : SpaceNetwork α} {a b : Nat}
    (h : ¬ b < net.locations.length) :
    net.connect_directed a b = (Except.error NetError.invalidHandle, net) := by
  simp [connect_directed, not_is_valid h]

theorem connect_bidirectional_invalid_left {net : SpaceNetwork α} {a b : Nat}
    (h : ¬ a < net.locations.length) :
    net.connect_bidirectional a b = (Except.error NetError.invalidHandle, net) := by
  simp [connect_bidirectional, not_is_valid h]

theorem connect_bidirectional_invalid_right {net : SpaceNetwork α} {a b : Nat}
    (h : ¬ b < net.locations.length) :
    net.connect_bidirectional a b = (Except.error NetError.invalidHandle, net) := by
  simp [connect_bidirectional, not_is_valid h]

end SpaceNetwork

/-! ## Preservation of the structural invariant (claim about `WF`) -/

theorem getD_append_lt (l l' : List β) (i : Nat) (d : β) (h : i < l.length) :
    (l ++ l').getD i d = l.getD i d := by
  induction l generalizing i with
  | nil => simp at h
  | cons a t ih =>
    cases i with
    | zero => simp
    | succ i => simpa using ih i (by simpa using h)

theorem getD_snoc_self (l : List β) (x d : β) :
    (l ++ [x]).getD l.length d = x := by
  induction l with
  | nil => rfl
  | cons a t ih => simp [ih]

namespace SpaceNetwork

theorem WF_new : (new : SpaceNetwork α).WF := by
  refine ⟨rfl, ?_, ?_⟩ <;> simp [new, WF]

theorem WF_add_location {net : SpaceNetwork α} (h : net.WF) (p : Point3 α) :
    (net.add_location p).1.WF := by
  obtain ⟨hlen, hids, hadj⟩ := h
  refine ⟨by simp [add_location, hlen], ?_, ?_⟩
  · intro i hi
    simp only [add_location, List.length_append, List.length_cons,
      List.length_nil] at hi ⊢
    by_cases hlt : i < net.locations.length
    · rw [getD_append_lt _ _ _ _ hlt]
      exact hids i hlt
    · have : i = net.locations.length := by omega
      subst this
      rw [getD_snoc_self]
  · intro l hl v hv
    simp only [add_location] at hl ⊢
    rcases List.mem_append.mp hl with hl | hl
    · have := hadj l hl v hv
      simp only [List.length_append, List.length_cons, List.length_nil]
      omega
    · simp only [List.mem_singleton] at hl
      subst hl
      simp at hv

theorem WF_move_location {net : SpaceNetwork α} (h : net.WF) (id : Nat)
    (p : Point3 α) : (net.move_location id p).2.WF := by
  obtain ⟨hlen, hids, hadj⟩ := h
  unfold move_location
  by_cases hv : net.is_valid id = true
  · simp only [hv, if_true]
    refine ⟨by simpa using hlen, ?_, by simpa using hadj⟩
    intro i hi
    simp only [length_listUpdate] at hi
    by_cases hii : id = i
    · subst hii
      rw [getD_listUpdate_self _ _ _ _ hi]
      exact hids id hi
    · rw [getD_listUpdate_ne _ _ _ _ _ hii]
      exact hids i hi
  · simp only [hv]
    exact ⟨hlen, hids, hadj⟩

theorem WF_pushEdge {net : SpaceNetwork α} (h : net.WF) {i v : Nat}
    (hv : v < net.locations.length) :
    WF { net with adjacency := listUpdate net.adjacency i (fun l => l ++ [v]) } := by
  obtain ⟨hlen, hids, hadj⟩ := h
  refine ⟨by simpa using hlen, hids, ?_⟩
  intro l hl w hw
  rcases mem_listUpdate hl with hl | ⟨y, hy, rfl⟩
  · exact hadj l hl w hw
  · rcases List.mem_append.mp hw with hw | hw
    · exact hadj y hy w hw
    · simp only [List.mem_singleton] at hw
      subst hw
      exact hv

theorem WF_connect_directed {net : SpaceNetwork α} (h : net.WF) (a b : Nat) :
    (net.connect_directed a b).2.WF := by
  unfold connect_directed
  by_cases hv : (net.is_valid a = true ∧ net.is_valid b = true)
  · by_cases hab : a = b
    · simp only [hv, not_true_eq_false, if_false, hab, if_true]
      exact h
    · simp only [hv, not_true_eq_false, if_false, if_neg hab]
      exact WF_pushEdge h (by simpa [is_valid] using hv.2)
  · simp only [if_pos hv]
    exact h

theorem WF_connect_bidirectional {net : SpaceNetwork α} (h : net.WF) (a b : Nat) :
    (net.connect_bidirectional a b).2.WF := by
  unfold connect_bidirectional
  by_cases hv : (net.is_valid a = true ∧ net.is_valid b = true)
  · by_cases hab : a = b
    · simp only [hv, not_true_eq_false, if_false, hab, if_true]
      exact h
    · simp only [hv, not_true_eq_false, if_false, if_neg hab]
      have h1 := @WF_pushEdge α _ net h a b (by simpa [is_valid] using hv.2)
      exact @WF_pushEdge α _ _ h1 b a (by simpa [is_valid] using hv.1)
  · simp only [if_pos hv]
    exact h

theorem Built.wf {net : SpaceNetwork α} (h : Built net) : net.WF := by
  induction h with
  | new => exact WF_new
  | add h ih => exact WF_add_location ih _
  | move h ih => exact WF_move_location ih _ _
  | connectD h ih => exact WF_connect_directed ih _ _
  | connectB h ih => exact WF_connect_bidirectional ih _ _

end SpaceNetwork

/-! ## Directed trails and their costs -/

/-- Consecutive members of `l` are joined by stored directed edges. -/
inductive IsTrail (net : SpaceNetwork α) : List Nat → Prop where
  | nil : IsTrail net []
  | single (u : Nat) : IsTrail net [u]
  | cons {u v : Nat} {rest : List Nat} :
      v ∈ net.adjacency.getD u [] → IsTrail net (v :: rest) →
      IsTrail net (u :: v :: rest)

/-- A directed path from `s` to `t`: a nonempty trail starting at `s` and
ending at `t`.  For `s = t` the one-element trail qualifies, so every
handle reaches itself. -/
def IsTrailFrom (net : SpaceNetwork α) (s t : Nat) (l : List Nat) : Prop :=
  l.head? = some s ∧ l.getLast? = some t ∧ IsTrail net l

/-- `t` is reachable from `s` through the directed adjacency relation. -/
def Reachable (net : SpaceNetwork α) (s t : Nat) : Prop :=
  ∃ l, IsTrailFrom net s t l

/-- Cost of a trail: sum of the weights of consecutive edges, in order. -/
def trailCost (d : Point3 α → Point3 α → α) (net : SpaceNetwork α) :
    List Nat → α
  | u :: v :: rest => edgeW d net u v + trailCost d net (v :: rest)
  | _ => 0

@[simp] theorem trailCost_nil (d : Point3 α → Point3 α → α)
    (net : SpaceNetwork α) : trailCost d net [] = 0 := rfl

@[simp] theorem trailCost_single (d : Point3 α → Point3 α → α)
    (net : SpaceNetwork α) (u : Nat) : trailCost d net [u] = 0 := rfl

@[simp] theorem trailCost_cons₂ (d : Point3 α → Point3 α → α)
    (net : SpaceNetwork α) (u v : Nat) (rest : List Nat) :
    trailCost d net (u :: v :: rest) =
      edgeW d net u v + trailCost d net (v :: rest) := rfl

theorem trailCost_nonneg {d : Point3 α → Point3 α → α}
    (hd : ∀ p q, 0 ≤ d p q) (net : SpaceNetwork α) (l : List Nat) :
    0 ≤ trailCost d net l := by
  induction l with
  | nil => simp
  | cons u rest ih =>
    cases rest with
    | nil => simp
    | cons v rest' =>
      have := hd (posAt net u) (posAt net v)
      simp only [trailCost_cons₂]
      have h2 : (0 : α) ≤ trailCost d net (v :: rest') := ih
      unfold edgeW
      linarith

theorem head?_append_of_ne_nil {l l' : List Nat} {s : Nat}
    (h : l.head? = some s) : (l ++ l').head? = some s := by
  cases l with
  | nil => simp at h
  | cons a t => simpa using h

theorem IsTrail.snoc {net : SpaceNetwork α} {l : List Nat} {u v : Nat}
    (h : IsTrail net l) (hl : l.getLast? = some u)
    (he : v ∈ net.adjacency.getD u []) : IsTrail net (l ++ [v]) := by
  induction h with
  | nil => simp at hl
  | single w =>
    simp only [List.getLast?_singleton, Option.some.injEq] at hl
    subst hl
    exact IsTrail.cons he (IsTrail.single v)
  | cons hedge htail ih =>
    rename_i a b rest
    have hl' : (b :: rest).getLast? = some u := by
      simpa [List.getLast?_cons_cons] using hl
    exact IsTrail.cons hedge (ih hl')


theorem trailCost_snoc {d : Point3 α → Point3 α → α} {net : SpaceNetwork α}
    {l : List Nat} {u v : Nat} (hl : l.getLast? = some u) :
    trailCost d net (l ++ [v]) = trailCost d net l + edgeW d net u v := by
  induction l generalizing u with
  | nil => simp at hl
  | cons a t ih =>
    cases t with
    | nil =>
      simp only [List.getLast?_singleton, Option.some.injEq] at hl
      subst hl
      simp
    | cons b t' =>
      have hl' : (b :: t').getLast? = some u := by
        simpa [List.getLast?_cons_cons] using hl
      have hih := ih hl'
      simp only [List.cons_append] at hih ⊢
      rw [trailCost_cons₂, trailCost_cons₂, hih]
      ring

theorem isTrailFrom_snoc {d : Point3 α → Point3 α → α} {net : SpaceNetwork α}
    {s u v : Nat} {l : List Nat} (h : IsTrailFrom net s u l)
    (he : v ∈ net.adjacency.getD u []) :
    IsTrailFrom net s v (l ++ [v]) ∧
      trailCost d net (l ++ [v]) = trailCost d net l + edgeW d net u v := by
  obtain ⟨hh, hl, ht⟩ := h
  refine ⟨⟨head?_append_of_ne_nil hh, by simp, ht.snoc hl he⟩, trailCost_snoc hl⟩

theorem isTrailFrom_single (net : SpaceNetwork α) (x : Nat) :
    IsTrailFrom net x x [x] :=
  ⟨rfl, rfl, IsTrail.single x⟩

/-! ## Predecessor chains -/

/-- The predecessor chain `v :: … :: start` recorded in `prev`: every
member's `prev` entry is the next member, the chain ends at `start`
(whose `prev` entry is `none`), and there are no repetitions. -/
inductive Chain (p : List (Option Nat)) (start : Nat) : Nat → List Nat → Prop where
  | base : pGet p start = none → Chain p start start [start]
  | step {v u : Nat} {L : List Nat} :
      pGet p v = some u → Chain p start u L → v ∉ L → Chain p start v (v :: L)

theorem Chain.head {p : List (Option Nat)} {start v : Nat} {L : List Nat}
    (h : Chain p start v L) : ∃ L', L = v :: L' := by
  cases h with
  | base _ => exact ⟨[], rfl⟩
  | step _ _ _ => exact ⟨_, rfl⟩

theorem Chain.nodup {p : List (Option Nat)} {start v : Nat} {L : List Nat}
    (h : Chain p start v L) : L.Nodup := by
  induction h with
  | base _ => simp
  | step _ _ hnotin ih => exact List.nodup_cons.mpr ⟨hnotin, ih⟩

theorem Chain.last_eq_start {p : List (Option Nat)} {start v : Nat}
    {L : List Nat} (h : Chain p start v L) : L.getLast? = some start := by
  induction h with
  | base _ => rfl
  | @step v u L hpv hc hnotin ih =>
    obtain ⟨L', rfl⟩ := hc.head
    simpa [List.getLast?_cons_cons] using ih

theorem Chain.mem_head {p : List (Option Nat)} {start v : Nat} {L : List Nat}
    (h : Chain p start v L) : v ∈ L := by
  obtain ⟨L', rfl⟩ := h.head
  simp

theorem Chain.congr {p p' : List (Option Nat)} {start v : Nat} {L : List Nat}
    (h : Chain p start v L) (hag : ∀ x ∈ L, pGet p' x = pGet p x) :
    Chain p' start v L := by
  induction h with
  | base h0 => exact Chain.base (by rw [hag start (by simp)]; exact h0)
  | @step v u L hpv hc hnotin ih =>
    refine Chain.step (by rw [hag v (by simp)]; exact hpv) ?_ hnotin
    exact ih (fun x hx => hag x (by simp [hx]))

theorem Chain.bounded {p : List (Option Nat)} {start v : Nat} {L : List Nat}
    {n : Nat} (h : Chain p start v L) (hs : start < n)
    (hb : ∀ x y, pGet p x = some y → x < n) : ∀ x ∈ L, x < n := by
  induction h with
  | base _ => simpa using hs
  | @step v u L hpv hc hnotin ih =>
    intro x hx
    rcases List.mem_cons.mp hx with rfl | hx
    · exact hb _ _ hpv
    · exact ih x hx

theorem nodup_bounded_length_le {L : List Nat} {n : Nat} (hnd : L.Nodup)
    (hb : ∀ x ∈ L, x < n) : L.length ≤ n := by
  classical
  have hsub : L.toFinset ⊆ Finset.range n := by
    intro x hx
    simp only [Finset.mem_range]
    exact hb x (List.mem_toFinset.mp hx)
  have hcard := Finset.card_le_card hsub
  rwa [List.toFinset_card_of_nodup hnd, Finset.card_range] at hcard

theorem follow_of_chain {p : List (Option Nat)} {start v : Nat} {L : List Nat}
    (h : Chain p start v L) : ∀ fuel, L.length ≤ fuel + 1 → follow p fuel v = L := by
  induction h with
  | base h0 =>
    intro fuel _
    cases fuel with
    | zero => rfl
    | succ f => simp [follow, h0]
  | @step v u L hpv hc hnotin ih =>
    intro fuel hlen
    obtain ⟨L', rfl⟩ := hc.head
    cases fuel with
    | zero =>
      simp only [List.length_cons] at hlen
      omega
    | succ f =>
      simp only [follow, hpv]
      rw [ih f (by simp only [List.length_cons] at hlen ⊢; omega)]

theorem chain_mono {p : List (Option Nat)} {dist : List (WithTop α)}
    {start v : Nat} {L : List Nat} (h : Chain p start v L)
    (hmono : ∀ x y, pGet p x = some y → dGet dist y ≤ dGet dist x) :
    ∀ x ∈ L, dGet dist x ≤ dGet dist v := by
  induction h with
  | base _ => simp
  | @step v u L hpv hc hnotin ih =>
    intro x hx
    rcases List.mem_cons.mp hx with rfl | hx
    · exact le_refl _
    · exact le_trans (ih x hx) (hmono _ _ hpv)

theorem chain_cons_inv {p : List (Option Nat)} {start v : Nat} {L : List Nat}
    (h : Chain p start v (v :: L)) :
    (L = [] ∧ v = start ∧ pGet p start = none) ∨
      ∃ u, pGet p v = some u ∧ Chain p start u L ∧ v ∉ L ∧ L.head? = some u := by
  cases h with
  | base h0 => exact Or.inl ⟨rfl, rfl, h0⟩
  | @step _ u L' hpv hc hnotin =>
    obtain ⟨L'', rfl⟩ := hc.head
    exact Or.inr ⟨u, hpv, hc, hnotin, rfl⟩

theorem chain_decompose {p : List (Option Nat)} {start v x : Nat} {L : List Nat}
    (h : Chain p start v L) (hx : x ∈ L) :
    ∃ A B, L = A ++ x :: B ∧ Chain p start x (x :: B) ∧ x ∉ A := by
  induction h with
  | base h0 =>
    simp only [List.mem_singleton] at hx
    subst hx
    exact ⟨[], [], rfl, Chain.base h0, by simp⟩
  | @step v u L hpv hc hnotin ih =>
    rcases List.mem_cons.mp hx with rfl | hx
    · exact ⟨[], L, rfl, Chain.step hpv hc hnotin, by simp⟩
    · obtain ⟨A, B, rfl, hcx, hxA⟩ := ih hx
      refine ⟨v :: A, B, rfl, hcx, ?_⟩
      simp only [List.mem_cons, not_or]
      refine ⟨?_, hxA⟩
      intro hvx
      subst hvx
      exact hnotin (by simp)

theorem chain_splice {p p' : List (Option Nat)} {start v : Nat} {B Lu : List Nat}
    (hnew : Chain p' start v (v :: Lu)) :
    ∀ (A : List Nat) (w : Nat), Chain p start w (A ++ v :: B) →
      (∀ x ∈ A, pGet p' x = pGet p x) → (∀ x ∈ A, x ∉ v :: Lu) →
      Chain p' start w (A ++ v :: Lu) := by
  intro A
  induction A with
  | nil =>
    intro w hold _ _
    obtain ⟨L', hL'⟩ := hold.head
    simp only [List.nil_append] at hL' ⊢
    injection hL' with h1 h2
    subst h1
    exact hnew
  | cons a A' ih =>
    intro w hold hag hdisj
    obtain ⟨L', hL'⟩ := hold.head
    simp only [List.cons_append] at hL'
    injection hL' with h1 h2
    subst h1
    have hold' : Chain p start a (a :: (A' ++ v :: B)) := by
      simpa using hold
    rcases chain_cons_inv hold' with ⟨hnil, _, _⟩ | ⟨u, hpw, hcu, hwni, hhead⟩
    · simp at hnil
    · have ihc : Chain p' start u (A' ++ v :: Lu) :=
        ih u hcu (fun x hx => hag x (by simp [hx]))
          (fun x hx => hdisj x (by simp [hx]))
      have hpa : pGet p' a = some u := by
        rw [hag a (by simp)]
        exact hpw
      have hstep := Chain.step hpa ihc ?nomem
      case nomem =>
        intro hmem
        rcases List.mem_append.mp hmem with hmem | hmem
        · exact hwni (List.mem_append.mpr (Or.inl hmem))
        · exact (hdisj a (by simp)) hmem
      simpa using hstep

/-! ## Frontier (binary heap) lemmas -/

theorem heapPop_cons_isSome (a : State α) (l' : List (State α)) :
    (heapPop (a :: l')).isSome = true := by
  rw [heapPop]
  cases hr : heapPop l' with
  | none => rfl
  | some pr =>
    obtain ⟨t, rem⟩ := pr
    dsimp only
    split <;> rfl

theorem eq_nil_of_heapPop_none {l : List (State α)} (hp : heapPop l = none) :
    l = [] := by
  cases l with
  | nil => rfl
  | cons a l' =>
    have := heapPop_cons_isSome a l'
    rw [hp] at this
    simp at this

/-- What `BinaryHeap::pop` guarantees for the source's `Ord` on `State`:
the popped entry is a member, the remainder is the rest of the multiset,
and the popped entry has minimal cost, with ties going to the largest
position index. -/
theorem heapPop_spec {l : List (State α)} :
    ∀ {s : State α} {rest : List (State α)}, heapPop l = some (s, rest) →
    s ∈ l ∧ rest.length + 1 = l.length ∧
      (∀ t ∈ rest, t ∈ l) ∧ (∀ t ∈ l, t = s ∨ t ∈ rest) ∧
      (∀ t ∈ l, s.cost < t.cost ∨ (s.cost = t.cost ∧ t.position ≤ s.position)) := by
  induction l with
  | nil =>
    intro s rest hp
    simp [heapPop] at hp
  | cons a l' ih =>
    intro s rest hp
    rcases hr : heapPop l' with _ | ⟨t, rem⟩
    · have hl' : l' = [] := eq_nil_of_heapPop_none hr
      subst hl'
      simp only [heapPop, Option.some.injEq, Prod.mk.injEq] at hp
      obtain ⟨rfl, rfl⟩ := hp
      refine ⟨by simp, by simp, by simp, by simp, ?_⟩
      intro x hx
      simp only [List.mem_singleton] at hx
      subst hx
      exact Or.inr ⟨rfl, le_refl _⟩
    · obtain ⟨htmem, hlen, hsub, hdec, hmin⟩ := ih hr
      simp only [heapPop, hr] at hp
      split at hp
      · rename_i hcond
        simp only [Option.some.injEq, Prod.mk.injEq] at hp
        obtain ⟨rfl, rfl⟩ := hp
        refine ⟨by simp [htmem], by simp only [List.length_cons]; omega, ?_, ?_, ?_⟩
        · intro x hx
          rcases List.mem_cons.mp hx with rfl | hx
          · simp
          · simp [hsub x hx]
        · intro x hx
          rcases List.mem_cons.mp hx with rfl | hx
          · exact Or.inr (by simp)
          · rcases hdec x hx with rfl | hx
            · exact Or.inl rfl
            · exact Or.inr (by simp [hx])
        · intro x hx
          rcases List.mem_cons.mp hx with rfl | hx
          · rcases hcond with hc | ⟨hc1, hc2⟩
            · exact Or.inl hc
            · exact Or.inr ⟨hc1, le_of_lt hc2⟩
          · exact hmin x hx
      · rename_i hcond
        push_neg at hcond
        obtain ⟨hc1, hc2⟩ := hcond
        simp only [Option.some.injEq, Prod.mk.injEq] at hp
        obtain ⟨rfl, rfl⟩ := hp
        refine ⟨by simp, by simp, ?_, ?_, ?_⟩
        · intro x hx
          exact List.mem_cons_of_mem a hx
        · intro x hx
          rcases List.mem_cons.mp hx with rfl | hx
          · exact Or.inl rfl
          · exact Or.inr hx
        · intro x hx
          rcases List.mem_cons.mp hx with rfl | hx
          · exact Or.inr ⟨rfl, le_refl _⟩
          · rcases hmin x hx with hx1 | ⟨hx1, hx2⟩
            · rcases lt_or_eq_of_le hc1 with hct | hct
              · exact Or.inl (lt_trans hct hx1)
              · exact Or.inl (by rw [hct]; exact hx1)
            · rcases lt_or_eq_of_le hc1 with hct | hct
              · exact Or.inl (by rw [← hx1]; exact hct)
              · refine Or.inr ⟨by rw [hct, hx1], ?_⟩
                exact le_trans hx2 (hc2 (by rw [hct]))

/-! ## The search-loop invariant

`P` is the set of handles already processed (popped with an up-to-date
cost and fully relaxed).  The invariant is everything the correctness,
termination and reconstruction arguments need; it is preserved by every
iteration of `dijkstraStep`. -/

/-- Auxiliary facts about `dist` relative to the processed set `P`:
members of `P` are valid non-goal handles, pairwise distinct, their `dist`
entries are finite and minimal over all directed paths from `start`, and
all their outgoing edges are relaxed. -/
structure PFacts (d : Point3 α → Point3 α → α) (net : SpaceNetwork α)
    (start goal : Nat) (P : List Nat) (st : DState α) : Prop where
  pnodes : ∀ u ∈ P, u < net.locations.length
  pnodup : P.Nodup
  pgoal : goal ∉ P
  pset : ∀ u ∈ P, ∃ cu : α, dGet st.dist u = (cu : WithTop α) ∧
    (∀ l, IsTrailFrom net start u l → cu ≤ trailCost d net l) ∧
    (∀ v ∈ net.adjacency.getD u [],
      dGet st.dist v ≤ ((cu + edgeW d net u v : α) : WithTop α))

/-- The full loop invariant, tied to the processed set `P`. -/
structure LoopInv (d : Point3 α → Point3 α → α) (net : SpaceNetwork α)
    (start goal : Nat) (P : List Nat) (st : DState α) : Prop where
  distLen : st.dist.length = net.locations.length
  prevLen : st.prev.length = net.locations.length
  distStart : dGet st.dist start = ((0 : α) : WithTop α)
  prevStart : pGet st.prev start = none
  sound : ∀ v (c : α), dGet st.dist v = (c : WithTop α) →
    ∃ l, IsTrailFrom net start v l ∧ trailCost d net l = c
  heapPos : ∀ e ∈ st.heap, e.position < net.locations.length
  heapBound : ∀ e ∈ st.heap,
    dGet st.dist e.position ≤ (e.cost : WithTop α) ∧ 0 ≤ e.cost
  link : ∀ v u, pGet st.prev v = some u →
    v < net.locations.length ∧ u < net.locations.length ∧ v ≠ start ∧
    u ≠ goal ∧ v ∈ net.adjacency.getD u [] ∧
    dGet st.dist u ≤ dGet st.dist v ∧
    ∃ cu : α, dGet st.dist u ≤ (cu : WithTop α) ∧
      dGet st.dist v = ((cu + edgeW d net u v : α) : WithTop α) ∧
      (dGet st.dist u = (cu : WithTop α) ∨ u ∈ P ∨
        ∃ e ∈ st.heap, e.position = u ∧
          (e.cost : WithTop α) = dGet st.dist u)
  chainEx : ∀ v, dGet st.dist v ≠ ⊤ → ∃ L, Chain st.prev start v L
  pfacts : PFacts d net start goal P st
  pending : st.done = false → ∀ v (c : α), dGet st.dist v = (c : WithTop α) →
    v ∈ P ∨ ∃ e ∈ st.heap, e.position = v ∧ e.cost = c
  doneFacts : st.done = true →
    (st.heap = [] ∧ ∀ (t : Nat) (l : List Nat), IsTrailFrom net start t l →
        dGet st.dist t ≤ ((trailCost d net l : α) : WithTop α)) ∨
      ∃ cg : α, dGet st.dist goal = (cg : WithTop α) ∧
        (∀ e ∈ st.heap, cg ≤ e.cost) ∧
        (∀ l, IsTrailFrom net start goal l → cg ≤ trailCost d net l)

/-- Termination measure: pending pops plus capacity for future insertions. -/
def searchMeasure (net : SpaceNetwork α) (P : List Nat) (st : DState α) : Nat :=
  st.heap.length +
    ∑ v ∈ (Finset.range net.locations.length).filter (fun v => v ∉ P),
      ((net.adjacency.getD v []).length + 1)

/-! Small `WithTop`/`getD` helpers used throughout. -/

theorem dGet_update_self {dist : List (WithTop α)} {v : Nat}
    (h : v < dist.length) (x : WithTop α) :
    dGet (listUpdate dist v (fun _ => x)) v = x := by
  unfold dGet
  rw [getD_listUpdate_self _ _ _ _ h]

theorem dGet_update_ne {dist : List (WithTop α)} {v i : Nat} (h : v ≠ i)
    (x : WithTop α) : dGet (listUpdate dist v (fun _ => x)) i = dGet dist i := by
  unfold dGet
  rw [getD_listUpdate_ne _ _ _ _ _ h]

theorem pGet_update_self {prev : List (Option Nat)} {v : Nat}
    (h : v < prev.length) (x : Option Nat) :
    pGet (listUpdate prev v (fun _ => x)) v = x := by
  unfold pGet
  rw [getD_listUpdate_self _ _ _ _ h]

theorem pGet_update_ne {prev : List (Option Nat)} {v i : Nat} (h : v ≠ i)
    (x : Option Nat) : pGet (listUpdate prev v (fun _ => x)) i = pGet prev i := by
  unfold pGet
  rw [getD_listUpdate_ne _ _ _ _ _ h]

theorem dGet_top_of_ge {dist : List (WithTop α)} {i : Nat}
    (h : dist.length ≤ i) : dGet dist i = ⊤ := by
  unfold dGet
  exact List.getD_eq_default _ _ h

theorem ne_top_of_le_coe {x : WithTop α} {c : α} (h : x ≤ (c : WithTop α)) :
    x ≠ ⊤ := by
  intro hx
  rw [hx] at h
  exact absurd h (by simp)

theorem exists_coe_of_ne_top {x : WithTop α} (h : x ≠ ⊤) :
    ∃ c : α, x = (c : WithTop α) := by
  cases x with
  | top => exact absurd rfl h
  | coe c => exact ⟨c, rfl⟩

/-! ## Optimality core: the cover lemma -/

theorem coverAux {d : Point3 α → Point3 α → α} {net : SpaceNetwork α}
    {start : Nat} {P : List Nat} {st : DState α}
    (hd : ∀ p q, 0 ≤ d p q)
    (hpset : ∀ u ∈ P, ∃ cu : α, dGet st.dist u = (cu : WithTop α) ∧
      (∀ l, IsTrailFrom net start u l → cu ≤ trailCost d net l) ∧
      (∀ v ∈ net.adjacency.getD u [],
        dGet st.dist v ≤ ((cu + edgeW d net u v : α) : WithTop α)))
    (hpending : ∀ v (c : α), dGet st.dist v = (c : WithTop α) →
      v ∈ P ∨ ∃ e ∈ st.heap, e.position = v ∧ e.cost = c) :
    ∀ (rest : List Nat) (u t : Nat) (cu : α),
      IsTrail net (u :: rest) → (u :: rest).getLast? = some t →
      dGet st.dist u ≤ (cu : WithTop α) →
      dGet st.dist t ≤ ((cu + trailCost d net (u :: rest) : α) : WithTop α) ∨
        ∃ e ∈ st.heap, e.cost ≤ cu + trailCost d net (u :: rest) := by
  intro rest
  induction rest with
  | nil =>
    intro u t cu _ hlast hu
    simp only [List.getLast?_singleton, Option.some.injEq] at hlast
    subst hlast
    left
    simpa using hu
  | cons v rest' ih =>
    intro u t cu htrail hlast hu
    have hedge : v ∈ net.adjacency.getD u [] := by
      cases htrail with
      | cons he _ => exact he
    have htrail' : IsTrail net (v :: rest') := by
      cases htrail with
      | cons _ ht => exact ht
    have hlast' : (v :: rest').getLast? = some t := by
      simpa [List.getLast?_cons_cons] using hlast
    obtain ⟨c', hc'⟩ := exists_coe_of_ne_top (ne_top_of_le_coe hu)
    have hc'le : c' ≤ cu := by
      rw [hc'] at hu
      exact_mod_cast hu
    have hcost0 : (0 : α) ≤ trailCost d net (u :: v :: rest') :=
      trailCost_nonneg hd net _
    rcases hpending u c' hc' with hP | ⟨e, he, hepos, hecost⟩
    · obtain ⟨cu₀, hcu₀, _, hrelax⟩ := hpset u hP
      have hcc : cu₀ = c' := by
        rw [hc'] at hcu₀
        exact (WithTop.coe_inj.mp hcu₀).symm
      subst hcc
      have hv : dGet st.dist v ≤ ((cu + edgeW d net u v : α) : WithTop α) := by
        refine le_trans (hrelax v hedge) ?_
        exact_mod_cast add_le_add_right hc'le _
      rcases ih v t (cu + edgeW d net u v) htrail' hlast' hv with h | ⟨e, he, hce⟩
      · left
        refine le_trans h ?_
        rw [WithTop.coe_le_coe]
        rw [trailCost_cons₂]
        ring_nf
        exact le_refl _
      · right
        refine ⟨e, he, ?_⟩
        refine le_trans hce ?_
        rw [trailCost_cons₂]
        ring_nf
        exact le_refl _
    · right
      refine ⟨e, he, ?_⟩
      rw [hecost]
      calc c' ≤ cu := hc'le
        _ ≤ cu + trailCost d net (u :: v :: rest') := le_add_of_nonneg_right hcost0

theorem cover {d : Point3 α → Point3 α → α} {net : SpaceNetwork α}
    {start : Nat} {P : List Nat} {st : DState α}
    (hd : ∀ p q, 0 ≤ d p q)
    (hds : dGet st.dist start = ((0 : α) : WithTop α))
    (hpset : ∀ u ∈ P, ∃ cu : α, dGet st.dist u = (cu : WithTop α) ∧
      (∀ l, IsTrailFrom net start u l → cu ≤ trailCost d net l) ∧
      (∀ v ∈ net.adjacency.getD u [],
        dGet st.dist v ≤ ((cu + edgeW d net u v : α) : WithTop α)))
    (hpending : ∀ v (c : α), dGet st.dist v = (c : WithTop α) →
      v ∈ P ∨ ∃ e ∈ st.heap, e.position = v ∧ e.cost = c) :
    ∀ (l : List Nat) (t : Nat), IsTrailFrom net start t l →
      dGet st.dist t ≤ ((trailCost d net l : α) : WithTop α) ∨
        ∃ e ∈ st.heap, e.cost ≤ trailCost d net l := by
  intro l t hl
  obtain ⟨hh, hlast, htrail⟩ := hl
  cases l with
  | nil => simp at hh
  | cons u rest =>
    simp only [List.head?_cons, Option.some.injEq] at hh
    subst hh
    have h0 : dGet st.dist u ≤ ((0 : α) : WithTop α) := le_of_eq hds
    rcases coverAux hd hpset hpending rest u t 0 htrail hlast h0 with h | ⟨e, he, hce⟩
    · left
      simpa using h
    · right
      exact ⟨e, he, by simpa using hce⟩

/-- A popped, non-stale entry carries the exact `dist` value of its position,
and that value is minimal over all directed paths from `start`. -/
theorem popped_min {d : Point3 α → Point3 α → α} {net : SpaceNetwork α}
    {start goal : Nat} {P : List Nat} {st : DState α}
    {s : State α} {rest : List (State α)}
    (hd : ∀ p q, 0 ≤ d p q)
    (hinv : LoopInv d net start goal P st)
    (hdone : st.done = false)
    (hp : heapPop st.heap = some (s, rest))
    (hns : ¬ dGet st.dist s.position < (s.cost : WithTop α)) :
    dGet st.dist s.position = (s.cost : WithTop α) ∧
      ∀ l, IsTrailFrom net start s.position l → s.cost ≤ trailCost d net l := by
  obtain ⟨hmem, _, _, _, hmin⟩ := heapPop_spec hp
  have hb := hinv.heapBound s hmem
  have heq : dGet st.dist s.position = (s.cost : WithTop α) :=
    le_antisymm hb.1 (not_lt.mp hns)
  refine ⟨heq, ?_⟩
  intro l hl
  rcases cover hd hinv.distStart hinv.pfacts.pset (hinv.pending hdone)
      l s.position hl with hc | ⟨e, he, hce⟩
  · rw [heq] at hc
    exact_mod_cast hc
  · have hse : s.cost ≤ e.cost := by
      rcases hmin e he with h1 | ⟨h1, _⟩
      · exact le_of_lt h1
      · exact le_of_eq h1
    exact le_trans hse hce

/-! ## Relaxation-step lemmas -/

theorem chain_prefix_ge {p : List (Option Nat)} {dist : List (WithTop α)}
    {start v : Nat} {B : List Nat}
    (hmono : ∀ x y, pGet p x = some y → dGet dist y ≤ dGet dist x) :
    ∀ (A : List Nat) (x : Nat), Chain p start x (A ++ v :: B) →
      ∀ y ∈ A, dGet dist v ≤ dGet dist y := by
  intro A
  induction A with
  | nil => intro x _ y hy; simp at hy
  | cons a A' ih =>
    intro x hc y hy
    obtain ⟨L', hL'⟩ := hc.head
    simp only [List.cons_append] at hL'
    injection hL' with h1 h2
    subst h1
    have hc' : Chain p start a (a :: (A' ++ v :: B)) := by simpa using hc
    rcases chain_cons_inv hc' with ⟨hnil, _, _⟩ | ⟨u', hpa, hcu', _, _⟩
    · simp at hnil
    · rcases List.mem_cons.mp hy with rfl | hy
      · have hvmem : v ∈ A' ++ v :: B := by simp
        have := chain_mono hcu' hmono v hvmem
        exact le_trans this (hmono _ _ hpa)
      · exact ih u' hcu' y hy

theorem relaxOne_no_update {d : Point3 α → Point3 α → α} {net : SpaceNetwork α}
    {u : Nat} {c : α} {st : DState α} {v : Nat}
    (h : ¬ ((c + edgeW d net u v : α) : WithTop α) < dGet st.dist v) :
    relaxOne d net u c st v = st := by
  unfold relaxOne
  simp only [h, if_false]

theorem relaxOne_update {d : Point3 α → Point3 α → α} {net : SpaceNetwork α}
    {u : Nat} {c : α} {st : DState α} {v : Nat}
    (h : ((c + edgeW d net u v : α) : WithTop α) < dGet st.dist v) :
    relaxOne d net u c st v =
      { st with
        dist := listUpdate st.dist v
          (fun _ => ((c + edgeW d net u v : α) : WithTop α))
        prev := listUpdate st.prev v (fun _ => some u)
        heap := ⟨c + edgeW d net u v, v⟩ :: st.heap } := by
  unfold relaxOne
  simp only [h, if_true]

theorem relaxOne_heap_le {d : Point3 α → Point3 α → α} {net : SpaceNetwork α}
    {u : Nat} {c : α} (st : DState α) (v : Nat) :
    (relaxOne d net u c st v).heap.length ≤ st.heap.length + 1 := by
  by_cases h : ((c + edgeW d net u v : α) : WithTop α) < dGet st.dist v
  · rw [relaxOne_update h]
    simp
  · rw [relaxOne_no_update h]
    simp

theorem relaxOne_done {d : Point3 α → Point3 α → α} {net : SpaceNetwork α}
    {u : Nat} {c : α} (st : DState α) (v : Nat) :
    (relaxOne d net u c st v).done = st.done := by
  by_cases h : ((c + edgeW d net u v : α) : WithTop α) < dGet st.dist v
  · rw [relaxOne_update h]
  · rw [relaxOne_no_update h]

theorem relaxFold_heap_le {d : Point3 α → Point3 α → α} {net : SpaceNetwork α}
    {u : Nat} {c : α} :
    ∀ (l : List Nat) (st : DState α),
      (l.foldl (relaxOne d net u c) st).heap.length ≤ st.heap.length + l.length := by
  intro l
  induction l with
  | nil => intro st; simp
  | cons v l' ih =>
    intro st
    calc ((v :: l').foldl (relaxOne d net u c) st).heap.length
        = (l'.foldl (relaxOne d net u c) (relaxOne d net u c st v)).heap.length := rfl
      _ ≤ (relaxOne d net u c st v).heap.length + l'.length := ih _
      _ ≤ st.heap.length + 1 + l'.length := by
          have := @relaxOne_heap_le α _ d net u c st v
          omega
      _ = st.heap.length + (v :: l').length := by simp [List.length_cons]; omega

theorem relaxFold_noop {d : Point3 α → Point3 α → α} {net : SpaceNetwork α}
    {u : Nat} {c : α} :
    ∀ (l : List Nat) (st : DState α),
      (∀ v ∈ l, ¬ ((c + edgeW d net u v : α) : WithTop α) < dGet st.dist v) →
      l.foldl (relaxOne d net u c) st = st := by
  intro l
  induction l with
  | nil => intro st _; rfl
  | cons v l' ih =>
    intro st h
    have h1 : relaxOne d net u c st v = st :=
      relaxOne_no_update (h v (by simp))
    calc (v :: l').foldl (relaxOne d net u c) st
        = l'.foldl (relaxOne d net u c) (relaxOne d net u c st v) := rfl
      _ = l'.foldl (relaxOne d net u c) st := by rw [h1]
      _ = st := ih st (fun x hx => h x (by simp [hx]))

theorem getD_mem_of_lt {l : List (List Nat)} {i : Nat} (h : i < l.length) :
    l.getD i [] ∈ l := by
  induction l generalizing i with
  | nil => simp at h
  | cons a t ih =>
    cases i with
    | zero => simp
    | succ i =>
      simp only [List.getD_cons_succ]
      exact List.mem_cons_of_mem a (ih (by simpa using h))

/-- Invariant holding part-way through the relaxation loop of a node `u`
popped with exact minimal cost `c`; `l₂` is the not-yet-relaxed suffix of
`u`'s adjacency list. -/
structure MidInv (d : Point3 α → Point3 α → α) (net : SpaceNetwork α)
    (start goal : Nat) (P : List Nat) (u : Nat) (c : α) (l₂ : List Nat)
    (st : DState α) : Prop where
  distLen : st.dist.length = net.locations.length
  prevLen : st.prev.length = net.locations.length
  distStart : dGet st.dist start = ((0 : α) : WithTop α)
  prevStart : pGet st.prev start = none
  sound : ∀ v (cv : α), dGet st.dist v = (cv : WithTop α) →
    ∃ l, IsTrailFrom net start v l ∧ trailCost d net l = cv
  heapPos : ∀ e ∈ st.heap, e.position < net.locations.length
  heapBound : ∀ e ∈ st.heap,
    dGet st.dist e.position ≤ (e.cost : WithTop α) ∧ 0 ≤ e.cost
  distU : dGet st.dist u = (c : WithTop α)
  minU : ∀ l, IsTrailFrom net start u l → c ≤ trailCost d net l
  linkO : ∀ v u₀, pGet st.prev v = some u₀ → u₀ ≠ u →
    v < net.locations.length ∧ u₀ < net.locations.length ∧ v ≠ start ∧
    u₀ ≠ goal ∧ v ∈ net.adjacency.getD u₀ [] ∧
    dGet st.dist u₀ ≤ dGet st.dist v ∧
    ∃ cu : α, dGet st.dist u₀ ≤ (cu : WithTop α) ∧
      dGet st.dist v = ((cu + edgeW d net u₀ v : α) : WithTop α) ∧
      (dGet st.dist u₀ = (cu : WithTop α) ∨ u₀ ∈ P ∨
        ∃ e ∈ st.heap, e.position = u₀ ∧
          (e.cost : WithTop α) = dGet st.dist u₀)
  linkU : ∀ v, pGet st.prev v = some u →
    v < net.locations.length ∧ v ≠ start ∧ v ∈ net.adjacency.getD u [] ∧
    ∃ cu : α, c ≤ cu ∧
      dGet st.dist v = ((cu + edgeW d net u v : α) : WithTop α) ∧
      (cu = c ∨ v ∈ l₂)
  chainEx : ∀ v, dGet st.dist v ≠ ⊤ → ∃ L, Chain st.prev start v L
  pfacts : PFacts d net start goal P st
  relaxed : ∀ v ∈ net.adjacency.getD u [], v ∈ l₂ ∨
    dGet st.dist v ≤ ((c + edgeW d net u v : α) : WithTop α)
  pendingU : ∀ v (cv : α), dGet st.dist v = (cv : WithTop α) →
    v = u ∨ v ∈ P ∨ ∃ e ∈ st.heap, e.position = v ∧ e.cost = cv
  doneF : st.done = false

/-- Links always point towards smaller `dist` values in a mid-fold state. -/
theorem MidInv.mono {d : Point3 α → Point3 α → α} {net : SpaceNetwork α}
    {start goal : Nat} {P : List Nat} {u : Nat} {c : α} {l₂ : List Nat}
    {st : DState α} (hd : ∀ p q, 0 ≤ d p q)
    (hmid : MidInv d net start goal P u c l₂ st) :
    ∀ x y, pGet st.prev x = some y → dGet st.dist y ≤ dGet st.dist x := by
  intro x y hx
  by_cases hyu : y = u
  · subst hyu
    obtain ⟨_, _, _, cu, hcu, hdx, _⟩ := hmid.linkU x hx
    rw [hmid.distU, hdx, WithTop.coe_le_coe]
    have := hd (posAt net y) (posAt net x)
    calc c ≤ cu := hcu
      _ ≤ cu + edgeW d net y x := le_add_of_nonneg_right (hd _ _)
  · exact (hmid.linkO x y hx hyu).2.2.2.2.2.1

theorem listUpdate_ge {l : List β} {i : Nat} (h : l.length ≤ i) (f : β → β) :
    listUpdate l i f = l := by
  induction l generalizing i with
  | nil => rfl
  | cons a t ih =>
    cases i with
    | zero => simp at h
    | succ i => simp [listUpdate, ih (by simpa using h)]

theorem dGet_update_le {dist : List (WithTop α)} {v : Nat} {x : WithTop α}
    (hx : x ≤ dGet dist v) :
    ∀ i, dGet (listUpdate dist v (fun _ => x)) i ≤ dGet dist i := by
  intro i
  by_cases hiv : v = i
  · subst hiv
    by_cases hlt : v < dist.length
    · rw [dGet_update_self hlt]
      exact hx
    · rw [listUpdate_ge (le_of_not_lt hlt)]
  · rw [dGet_update_ne hiv]

/-- One relaxation preserves the mid-fold invariant, discharging the head of
the remaining adjacency suffix. -/
theorem midInv_step {d : Point3 α → Point3 α → α} {net : SpaceNetwork α}
    {start goal : Nat} {P : List Nat} {u : Nat} {c : α}
    (hd : ∀ p q, 0 ≤ d p q)
    (hwlen : net.adjacency.length = net.locations.length)
    (hwadj : ∀ l ∈ net.adjacency, ∀ x ∈ l, x < net.locations.length)
    (hu : u < net.locations.length)
    {v : Nat} {l₂ : List Nat} {st : DState α}
    (hv : v ∈ net.adjacency.getD u [])
    (hmid : MidInv d net start goal P u c (v :: l₂) st) :
    MidInv d net start goal P u c l₂ (relaxOne d net u c st v) := by
  have hc0 : 0 ≤ c := by
    obtain ⟨l, _, hcost⟩ := hmid.sound u c hmid.distU
    rw [← hcost]
    exact trailCost_nonneg hd net l
  by_cases h : ((c + edgeW d net u v : α) : WithTop α) < dGet st.dist v
  case neg =>
    -- no improvement: the state is unchanged, only the book-keeping shrinks
    rw [relaxOne_no_update h]
    have hDvle : dGet st.dist v ≤ ((c + edgeW d net u v : α) : WithTop α) :=
      not_lt.mp h
    refine { hmid with linkU := ?_, relaxed := ?_ }
    · intro x hx
      obtain ⟨hxn, hxs, hxadj, cu, hcu, hdx, hdisj⟩ := hmid.linkU x hx
      refine ⟨hxn, hxs, hxadj, cu, hcu, hdx, ?_⟩
      rcases hdisj with hcuc | hxm
      · exact Or.inl hcuc
      · rcases List.mem_cons.mp hxm with rfl | hxm
        · left
          rw [hdx] at hDvle
          have hle : cu + edgeW d net u x ≤ c + edgeW d net u x := by
            exact_mod_cast hDvle
          have : cu ≤ c := by linarith
          exact le_antisymm this hcu
        · exact Or.inr hxm
    · intro x hxadj
      rcases hmid.relaxed x hxadj with hxm | hxle
      · rcases List.mem_cons.mp hxm with rfl | hxm
        · exact Or.inr hDvle
        · exact Or.inl hxm
      · exact Or.inr hxle
  case pos =>
    rw [relaxOne_update h]
    have hvn : v < net.locations.length := by
      refine hwadj (net.adjacency.getD u []) ?_ v hv
      exact getD_mem_of_lt (by rw [hwlen]; exact hu)
    have hvu : v ≠ u := by
      intro hvu
      subst hvu
      rw [hmid.distU, WithTop.coe_lt_coe] at h
      have := hd (posAt net v) (posAt net v)
      simp only [edgeW] at h
      linarith
    have hvstart : v ≠ start := by
      intro hvs
      subst hvs
      rw [hmid.distStart, WithTop.coe_lt_coe] at h
      have := hd (posAt net u) (posAt net v)
      simp only [edgeW] at h
      linarith
    have hcw0 : 0 ≤ c + edgeW d net u v := by
      have := hd (posAt net u) (posAt net v)
      simp only [edgeW]
      linarith
    have hdlen : v < st.dist.length := by rw [hmid.distLen]; exact hvn
    have hplen : v < st.prev.length := by rw [hmid.prevLen]; exact hvn
    have hDle : ∀ i, dGet (listUpdate st.dist v
        (fun _ => ((c + edgeW d net u v : α) : WithTop α))) i ≤ dGet st.dist i :=
      dGet_update_le (le_of_lt h)
    have hDv' : dGet (listUpdate st.dist v
        (fun _ => ((c + edgeW d net u v : α) : WithTop α))) v =
        ((c + edgeW d net u v : α) : WithTop α) := dGet_update_self hdlen _
    have hDne : ∀ i, v ≠ i → dGet (listUpdate st.dist v
        (fun _ => ((c + edgeW d net u v : α) : WithTop α))) i = dGet st.dist i :=
      fun i hi => dGet_update_ne hi _
    have hPne : ∀ i, v ≠ i → pGet (listUpdate st.prev v (fun _ => some u)) i =
        pGet st.prev i := fun i hi => pGet_update_ne hi _
    have hPv : pGet (listUpdate st.prev v (fun _ => some u)) v = some u :=
      pGet_update_self hplen _
    -- the trail reaching `v` through `u`
    obtain ⟨lu, hlu, hclu⟩ := hmid.sound u c hmid.distU
    have hsnoc := @isTrailFrom_snoc α _ d _ _ _ _ _ hlu hv
    have htrailv : IsTrailFrom net start v (lu ++ [v]) := hsnoc.1
    have hcostv : trailCost d net (lu ++ [v]) = c + edgeW d net u v := by
      rw [hsnoc.2, hclu]
    -- the new chain for `v`
    obtain ⟨Lu, hLu⟩ := hmid.chainEx u (by rw [hmid.distU]; exact WithTop.coe_ne_top)
    have hmono := hmid.mono hd
    have hLuBound : ∀ y ∈ Lu, dGet st.dist y ≤ (c : WithTop α) := by
      intro y hy
      have := chain_mono hLu hmono y hy
      rwa [hmid.distU] at this
    have hcltDv : (c : WithTop α) < dGet st.dist v :=
      lt_of_le_of_lt (by exact_mod_cast le_add_of_nonneg_right (hd _ _)) h
    have hvLu : v ∉ Lu := fun hvin =>
      absurd (hLuBound v hvin) (not_le.mpr hcltDv)
    have hnewchain : Chain (listUpdate st.prev v (fun _ => some u)) start v (v :: Lu) := by
      refine Chain.step hPv ?_ hvLu
      refine hLu.congr ?_
      intro y hy
      exact hPne y (fun hyv => hvLu (hyv ▸ hy))
    refine
      { distLen := by simpa using hmid.distLen
        prevLen := by simpa using hmid.prevLen
        distStart := ?_
        prevStart := ?_
        sound := ?_
        heapPos := ?_
        heapBound := ?_
        distU := ?_
        minU := hmid.minU
        linkO := ?_
        linkU := ?_
        chainEx := ?_
        pfacts := ?_
        relaxed := ?_
        pendingU := ?_
        doneF := hmid.doneF }
    · -- distStart
      show dGet _ start = _
      rw [hDne start hvstart]
      exact hmid.distStart
    · -- prevStart
      show pGet _ start = none
      rw [hPne start hvstart]
      exact hmid.prevStart
    · -- sound
      intro x cx hx
      by_cases hxv : x = v
      · subst hxv
        rw [hDv'] at hx
        have : c + edgeW d net u x = cx := WithTop.coe_inj.mp hx
        exact ⟨lu ++ [x], htrailv, by rw [hcostv, this]⟩
      · rw [hDne x (fun e => hxv e.symm)] at hx
        exact hmid.sound x cx hx
    · -- heapPos
      intro e he
      rcases List.mem_cons.mp he with rfl | he
      · exact hvn
      · exact hmid.heapPos e he
    · -- heapBound
      intro e he
      rcases List.mem_cons.mp he with rfl | he
      · exact ⟨le_of_eq hDv', hcw0⟩
      · exact ⟨le_trans (hDle e.position) (hmid.heapBound e he).1,
          (hmid.heapBound e he).2⟩
    · -- distU
      show dGet _ u = _
      rw [hDne u hvu]
      exact hmid.distU
    · -- linkO
      intro x u₀ hx hne
      by_cases hxv : x = v
      · subst hxv
        rw [hPv] at hx
        have huu : u = u₀ := by injection hx
        exact absurd huu.symm hne
      · rw [hPne x (fun e => hxv e.symm)] at hx
        obtain ⟨hxn, hun, hxs, hug', hxadj, hmono', cu, hcu, hdx, hdisj⟩ :=
          hmid.linkO x u₀ hx hne
        refine ⟨hxn, hun, hxs, hug', hxadj, ?_, cu, ?_, ?_, ?_⟩
        · rw [hDne x (fun e => hxv e.symm)]
          exact le_trans (hDle u₀) hmono'
        · exact le_trans (hDle u₀) hcu
        · rw [hDne x (fun e => hxv e.symm)]
          exact hdx
        · by_cases huv : u₀ = v
          · subst huv
            right; right
            exact ⟨⟨c + edgeW d net u u₀, u₀⟩, by simp, rfl, by rw [hDv']⟩
          · rcases hdisj with h1 | h1 | ⟨e, he, hep, hec⟩
            · left
              rw [hDne u₀ (fun e => huv e.symm)]
              exact h1
            · exact Or.inr (Or.inl h1)
            · right; right
              refine ⟨e, by simp [he], hep, ?_⟩
              rw [hDne u₀ (fun e => huv e.symm)]
              exact hec
    · -- linkU
      intro x hx
      by_cases hxv : x = v
      · subst hxv
        refine ⟨hvn, hvstart, hv, c, le_refl c, ?_, Or.inl rfl⟩
        exact hDv'
      · rw [hPne x (fun e => hxv e.symm)] at hx
        obtain ⟨hxn, hxs, hxadj, cu, hcu, hdx, hdisj⟩ := hmid.linkU x hx
        refine ⟨hxn, hxs, hxadj, cu, hcu, ?_, ?_⟩
        · rw [hDne x (fun e => hxv e.symm)]
          exact hdx
        · rcases hdisj with h1 | h1
          · exact Or.inl h1
          · rcases List.mem_cons.mp h1 with rfl | h1
            · exact absurd rfl hxv
            · exact Or.inr h1
    · -- chainEx
      intro x hx
      by_cases hxv : x = v
      · subst hxv
        exact ⟨x :: Lu, hnewchain⟩
      · rw [hDne x (fun e => hxv e.symm)] at hx
        obtain ⟨Lx, hLx⟩ := hmid.chainEx x hx
        by_cases hvin : v ∈ Lx
        · obtain ⟨A, B, hLxeq, hchv, hvA⟩ := chain_decompose hLx hvin
          subst hLxeq
          refine ⟨A ++ v :: Lu, ?_⟩
          refine chain_splice hnewchain A x hLx ?_ ?_
          · intro y hy
            exact hPne y (fun hyv => hvA (hyv ▸ hy))
          · intro y hy hymem
            rcases List.mem_cons.mp hymem with rfl | hyLu
            · exact hvA hy
            · have h1 : dGet st.dist v ≤ dGet st.dist y :=
                chain_prefix_ge hmono A x hLx y hy
              have h2 : dGet st.dist y ≤ (c : WithTop α) := hLuBound y hyLu
              exact absurd (le_trans h1 h2) (not_le.mpr hcltDv)
        · refine ⟨Lx, hLx.congr ?_⟩
          intro y hy
          exact hPne y (fun hyv => hvin (hyv ▸ hy))
    · -- pfacts
      obtain ⟨pnodes, pnodup, pgoal, pset⟩ := hmid.pfacts
      refine ⟨pnodes, pnodup, pgoal, ?_⟩
      intro u₀ hu₀
      obtain ⟨cu₀, hdu₀, hmin₀, hrel₀⟩ := pset u₀ hu₀
      have hu₀v : u₀ ≠ v := by
        intro he
        subst he
        have hle : cu₀ ≤ c + edgeW d net u u₀ := by
          rw [← hcostv]
          exact hmin₀ (lu ++ [u₀]) htrailv
        rw [hdu₀, WithTop.coe_lt_coe] at h
        linarith
      refine ⟨cu₀, ?_, hmin₀, ?_⟩
      · rw [hDne u₀ (fun e => hu₀v e.symm)]
        exact hdu₀
      · intro x hxadj
        exact le_trans (hDle x) (hrel₀ x hxadj)
    · -- relaxed
      intro x hxadj
      rcases hmid.relaxed x hxadj with hxm | hxle
      · rcases List.mem_cons.mp hxm with rfl | hxm
        · right
          rw [hDv']
        · exact Or.inl hxm
      · right
        exact le_trans (hDle x) hxle
    · -- pendingU
      intro x cx hx
      by_cases hxv : x = v
      · subst hxv
        rw [hDv'] at hx
        right; right
        exact ⟨⟨c + edgeW d net u x, x⟩, by simp, rfl, WithTop.coe_inj.mp hx⟩
      · rw [hDne x (fun e => hxv e.symm)] at hx
        rcases hmid.pendingU x cx hx with h1 | h1 | ⟨e, he, hep, hec⟩
        · exact Or.inl h1
        · exact Or.inr (Or.inl h1)
        · exact Or.inr (Or.inr ⟨e, by simp [he], hep, hec⟩)

/-- Folding the relaxation over the remaining suffix empties it. -/
theorem midInv_fold {d : Point3 α → Point3 α → α} {net : SpaceNetwork α}
    {start goal : Nat} {P : List Nat} {u : Nat} {c : α}
    (hd : ∀ p q, 0 ≤ d p q)
    (hwlen : net.adjacency.length = net.locations.length)
    (hwadj : ∀ l ∈ net.adjacency, ∀ x ∈ l, x < net.locations.length)
    (hu : u < net.locations.length) :
    ∀ (l₂ : List Nat) (st : DState α),
      (∀ x ∈ l₂, x ∈ net.adjacency.getD u []) →
      MidInv d net start goal P u c l₂ st →
      MidInv d net start goal P u c [] (l₂.foldl (relaxOne d net u c) st) := by
  intro l₂
  induction l₂ with
  | nil => intro st _ hmid; exact hmid
  | cons v l₂' ih =>
    intro st hsub hmid
    have hv : v ∈ net.adjacency.getD u [] := hsub v (by simp)
    have hstep := midInv_step hd hwlen hwadj hu hv hmid
    exact ih (relaxOne d net u c st v) (fun x hx => hsub x (by simp [hx])) hstep

/-- Entering the relaxation loop: a freshly popped, up-to-date, non-goal,
not-yet-processed node establishes the mid-fold invariant over its full
adjacency list (with the popped entry removed from the heap). -/
theorem midInv_enter {d : Point3 α → Point3 α → α} {net : SpaceNetwork α}
    {start goal : Nat} {P : List Nat} {st : DState α}
    {s : State α} {rest : List (State α)}
    (hd : ∀ p q, 0 ≤ d p q)
    (hinv : LoopInv d net start goal P st)
    (hdone : st.done = false)
    (hp : heapPop st.heap = some (s, rest))
    (hns : ¬ dGet st.dist s.position < (s.cost : WithTop α))
    (huP : s.position ∉ P) :
    MidInv d net start goal P s.position s.cost
      (net.adjacency.getD s.position []) { st with heap := rest } := by
  obtain ⟨hmem, hlen, hsub, hdec, hmin⟩ := heapPop_spec hp
  obtain ⟨hDu, hminU⟩ := popped_min hd hinv hdone hp hns
  refine
    { distLen := hinv.distLen
      prevLen := hinv.prevLen
      distStart := hinv.distStart
      prevStart := hinv.prevStart
      sound := hinv.sound
      heapPos := fun e he => hinv.heapPos e (hsub e he)
      heapBound := fun e he => hinv.heapBound e (hsub e he)
      distU := hDu
      minU := hminU
      linkO := ?_
      linkU := ?_
      chainEx := hinv.chainEx
      pfacts := ⟨hinv.pfacts.pnodes, hinv.pfacts.pnodup, hinv.pfacts.pgoal,
        hinv.pfacts.pset⟩
      relaxed := fun v hv => Or.inl hv
      pendingU := ?_
      doneF := hdone }
  · intro x u₀ hx hne
    obtain ⟨hxn, hun, hxs, hug', hxadj, hmono', cu, hcu, hdx, hdisj⟩ :=
      hinv.link x u₀ hx
    refine ⟨hxn, hun, hxs, hug', hxadj, hmono', cu, hcu, hdx, ?_⟩
    rcases hdisj with h1 | h1 | ⟨e, he, hep, hec⟩
    · exact Or.inl h1
    · exact Or.inr (Or.inl h1)
    · rcases hdec e he with rfl | he'
      · exact absurd hep.symm hne
      · exact Or.inr (Or.inr ⟨e, he', hep, hec⟩)
  · intro x hx
    obtain ⟨hxn, _, hxs, _, hxadj, _, cu, hcu, hdx, _⟩ :=
      hinv.link x s.position hx
    refine ⟨hxn, hxs, hxadj, cu, ?_, hdx, Or.inr hxadj⟩
    rw [hDu] at hcu
    exact_mod_cast hcu
  · intro x cx hx
    rcases hinv.pending hdone x cx hx with h1 | ⟨e, he, hep, hec⟩
    · exact Or.inr (Or.inl h1)
    · rcases hdec e he with rfl | he'
      · exact Or.inl hep.symm
      · exact Or.inr (Or.inr ⟨e, he', hep, hec⟩)

/-- Leaving the relaxation loop: the exhausted mid-fold invariant gives back
the main invariant with the processed node added to `P`. -/
theorem midInv_exit {d : Point3 α → Point3 α → α} {net : SpaceNetwork α}
    {start goal : Nat} {P : List Nat} {u : Nat} {c : α} {st : DState α}
    (hd : ∀ p q, 0 ≤ d p q)
    (hu : u < net.locations.length) (hug : u ≠ goal) (huP : u ∉ P)
    (hmid : MidInv d net start goal P u c [] st) :
    LoopInv d net start goal (u :: P) st := by
  refine
    { distLen := hmid.distLen
      prevLen := hmid.prevLen
      distStart := hmid.distStart
      prevStart := hmid.prevStart
      sound := hmid.sound
      heapPos := hmid.heapPos
      heapBound := hmid.heapBound
      link := ?_
      chainEx := hmid.chainEx
      pfacts := ?_
      pending := ?_
      doneFacts := ?_ }
  · intro x u₀ hx
    by_cases hu₀ : u₀ = u
    · subst hu₀
      obtain ⟨hxn, hxs, hxadj, cu, hcu, hdx, hdisj⟩ := hmid.linkU x hx
      have hcuc : cu = c := by
        rcases hdisj with h1 | h1
        · exact h1
        · simp at h1
      subst hcuc
      refine ⟨hxn, hu, hxs, hug, hxadj, ?_, cu, le_of_eq hmid.distU, hdx, ?_⟩
      · rw [hmid.distU, hdx, WithTop.coe_le_coe]
        exact le_add_of_nonneg_right (hd _ _)
      · exact Or.inl hmid.distU
    · obtain ⟨hxn, hun, hxs, hug', hxadj, hmono', cu, hcu, hdx, hdisj⟩ :=
        hmid.linkO x u₀ hx hu₀
      refine ⟨hxn, hun, hxs, hug', hxadj, hmono', cu, hcu, hdx, ?_⟩
      rcases hdisj with h1 | h1 | h1
      · exact Or.inl h1
      · exact Or.inr (Or.inl (by simp [h1]))
      · exact Or.inr (Or.inr h1)
  · refine ⟨?_, ?_, ?_, ?_⟩
    · intro x hx
      rcases List.mem_cons.mp hx with rfl | hx
      · exact hu
      · exact hmid.pfacts.pnodes x hx
    · exact List.nodup_cons.mpr ⟨huP, hmid.pfacts.pnodup⟩
    · intro hgoal
      rcases List.mem_cons.mp hgoal with h1 | h1
      · exact hug h1.symm
      · exact hmid.pfacts.pgoal h1
    · intro x hx
      rcases List.mem_cons.mp hx with rfl | hx
      · refine ⟨c, hmid.distU, hmid.minU, ?_⟩
        intro y hy
        rcases hmid.relaxed y hy with h1 | h1
        · simp at h1
        · exact h1
      · exact hmid.pfacts.pset x hx
  · intro _ x cx hx
    rcases hmid.pendingU x cx hx with h1 | h1 | h1
    · exact Or.inl (by simp [h1])
    · exact Or.inl (by simp [h1])
    · exact Or.inr h1
  · intro hdone
    rw [hmid.doneF] at hdone
    simp at hdone

/-- Popping a stale entry (or any entry whose removal leaves all invariant
witnesses intact) preserves the invariant. -/
theorem loopInv_skip {d : Point3 α → Point3 α → α} {net : SpaceNetwork α}
    {start goal : Nat} {P : List Nat} {st : DState α}
    {s : State α} {rest : List (State α)}
    (hinv : LoopInv d net start goal P st)
    (hdone : st.done = false)
    (hp : heapPop st.heap = some (s, rest))
    (hstale : dGet st.dist s.position < (s.cost : WithTop α)) :
    LoopInv d net start goal P { st with heap := rest } := by
  obtain ⟨hmem, hlen, hsub, hdec, hmin⟩ := heapPop_spec hp
  refine
    { distLen := hinv.distLen
      prevLen := hinv.prevLen
      distStart := hinv.distStart
      prevStart := hinv.prevStart
      sound := hinv.sound
      heapPos := fun e he => hinv.heapPos e (hsub e he)
      heapBound := fun e he => hinv.heapBound e (hsub e he)
      link := ?_
      chainEx := hinv.chainEx
      pfacts := ⟨hinv.pfacts.pnodes, hinv.pfacts.pnodup, hinv.pfacts.pgoal,
        hinv.pfacts.pset⟩
      pending := ?_
      doneFacts := ?_ }
  · intro x u₀ hx
    obtain ⟨hxn, hun, hxs, hug', hxadj, hmono', cu, hcu, hdx, hdisj⟩ :=
      hinv.link x u₀ hx
    refine ⟨hxn, hun, hxs, hug', hxadj, hmono', cu, hcu, hdx, ?_⟩
    rcases hdisj with h1 | h1 | ⟨e, he, hep, hec⟩
    · exact Or.inl h1
    · exact Or.inr (Or.inl h1)
    · rcases hdec e he with rfl | he'
      · rw [hep, hec] at hstale
        exact absurd hstale (lt_irrefl _)
      · exact Or.inr (Or.inr ⟨e, he', hep, hec⟩)
  · intro _ x cx hx
    rcases hinv.pending hdone x cx hx with h1 | ⟨e, he, hep, hec⟩
    · exact Or.inl h1
    · rcases hdec e he with rfl | he'
      · subst hep
        rw [hx] at hstale
        rw [hec] at hstale
        exact absurd hstale (lt_irrefl _)
      · exact Or.inr ⟨e, he', hep, hec⟩
  · intro hdone'
    simp [hdone] at hdone'

/-- Popping an up-to-date entry for an already-processed node: all its
relaxations fail, and the invariant survives the entry's removal. -/
theorem loopInv_reprocess {d : Point3 α → Point3 α → α} {net : SpaceNetwork α}
    {start goal : Nat} {P : List Nat} {st : DState α}
    {s : State α} {rest : List (State α)}
    (hinv : LoopInv d net start goal P st)
    (hdone : st.done = false)
    (hp : heapPop st.heap = some (s, rest))
    (hns : ¬ dGet st.dist s.position < (s.cost : WithTop α))
    (hP : s.position ∈ P) :
    LoopInv d net start goal P { st with heap := rest } := by
  obtain ⟨hmem, hlen, hsub, hdec, hmin⟩ := heapPop_spec hp
  refine
    { distLen := hinv.distLen
      prevLen := hinv.prevLen
      distStart := hinv.distStart
      prevStart := hinv.prevStart
      sound := hinv.sound
      heapPos := fun e he => hinv.heapPos e (hsub e he)
      heapBound := fun e he => hinv.heapBound e (hsub e he)
      link := ?_
      chainEx := hinv.chainEx
      pfacts := ⟨hinv.pfacts.pnodes, hinv.pfacts.pnodup, hinv.pfacts.pgoal,
        hinv.pfacts.pset⟩
      pending := ?_
      doneFacts := ?_ }
  · intro x u₀ hx
    obtain ⟨hxn, hun, hxs, hug', hxadj, hmono', cu, hcu, hdx, hdisj⟩ :=
      hinv.link x u₀ hx
    refine ⟨hxn, hun, hxs, hug', hxadj, hmono', cu, hcu, hdx, ?_⟩
    rcases hdisj with h1 | h1 | ⟨e, he, hep, hec⟩
    · exact Or.inl h1
    · exact Or.inr (Or.inl h1)
    · rcases hdec e he with rfl | he'
      · exact Or.inr (Or.inl (hep ▸ hP))
      · exact Or.inr (Or.inr ⟨e, he', hep, hec⟩)
  · intro _ x cx hx
    rcases hinv.pending hdone x cx hx with h1 | ⟨e, he, hep, hec⟩
    · exact Or.inl h1
    · rcases hdec e he with rfl | he'
      · exact Or.inl (hep ▸ hP)
      · exact Or.inr ⟨e, he', hep, hec⟩
  · intro hdone'
    simp [hdone] at hdone'

/-- The relaxations of an already-processed node all fail. -/
theorem reprocess_noop {d : Point3 α → Point3 α → α} {net : SpaceNetwork α}
    {start goal : Nat} {P : List Nat} {st : DState α}
    {s : State α} {rest : List (State α)}
    (hinv : LoopInv d net start goal P st)
    (hp : heapPop st.heap = some (s, rest))
    (hns : ¬ dGet st.dist s.position < (s.cost : WithTop α))
    (hP : s.position ∈ P) :
    (net.adjacency.getD s.position []).foldl
        (relaxOne d net s.position s.cost) { st with heap := rest } =
      { st with heap := rest } := by
  obtain ⟨hmem, _, _, _, _⟩ := heapPop_spec hp
  obtain ⟨cu, hdu, _, hrel⟩ := hinv.pfacts.pset s.position hP
  have hcu : cu = s.cost := by
    have hb := (hinv.heapBound s hmem).1
    have heq : dGet st.dist s.position = (s.cost : WithTop α) :=
      le_antisymm hb (not_lt.mp hns)
    rw [heq] at hdu
    exact (WithTop.coe_inj.mp hdu).symm
  subst hcu
  refine relaxFold_noop _ _ ?_
  intro v hv
  exact not_lt.mpr (hrel v hv)

/-- Popping the goal with an up-to-date cost: the loop breaks and the final
facts are recorded. -/
theorem loopInv_break {d : Point3 α → Point3 α → α} {net : SpaceNetwork α}
    {start goal : Nat} {P : List Nat} {st : DState α}
    {s : State α} {rest : List (State α)}
    (hd : ∀ p q, 0 ≤ d p q)
    (hinv : LoopInv d net start goal P st)
    (hdone : st.done = false)
    (hp : heapPop st.heap = some (s, rest))
    (hns : ¬ dGet st.dist s.position < (s.cost : WithTop α))
    (hgoal : s.position = goal) :
    LoopInv d net start goal P { st with heap := rest, done := true } := by
  obtain ⟨hmem, hlen, hsub, hdec, hmin⟩ := heapPop_spec hp
  obtain ⟨hDs, hminS⟩ := popped_min hd hinv hdone hp hns
  refine
    { distLen := hinv.distLen
      prevLen := hinv.prevLen
      distStart := hinv.distStart
      prevStart := hinv.prevStart
      sound := hinv.sound
      heapPos := fun e he => hinv.heapPos e (hsub e he)
      heapBound := fun e he => hinv.heapBound e (hsub e he)
      link := ?_
      chainEx := hinv.chainEx
      pfacts := ⟨hinv.pfacts.pnodes, hinv.pfacts.pnodup, hinv.pfacts.pgoal,
        hinv.pfacts.pset⟩
      pending := ?_
      doneFacts := ?_ }
  · intro x u₀ hx
    obtain ⟨hxn, hun, hxs, hug', hxadj, hmono', cu, hcu, hdx, hdisj⟩ :=
      hinv.link x u₀ hx
    refine ⟨hxn, hun, hxs, hug', hxadj, hmono', cu, hcu, hdx, ?_⟩
    rcases hdisj with h1 | h1 | ⟨e, he, hep, hec⟩
    · exact Or.inl h1
    · exact Or.inr (Or.inl h1)
    · rcases hdec e he with rfl | he'
      · exact absurd (hep ▸ hgoal) hug'
      · exact Or.inr (Or.inr ⟨e, he', hep, hec⟩)
  · intro hdone'
    simp at hdone'
  · intro _
    right
    refine ⟨s.cost, hgoal ▸ hDs, ?_, hgoal ▸ hminS⟩
    intro e he
    rcases hmin e (hsub e he) with h1 | ⟨h1, _⟩
    · exact le_of_lt h1
    · exact le_of_eq h1

/-- An empty frontier: the loop exits having settled every reachable node. -/
theorem loopInv_empty {d : Point3 α → Point3 α → α} {net : SpaceNetwork α}
    {start goal : Nat} {P : List Nat} {st : DState α}
    (hd : ∀ p q, 0 ≤ d p q)
    (hinv : LoopInv d net start goal P st)
    (hdone : st.done = false)
    (hp : heapPop st.heap = none) :
    LoopInv d net start goal P { st with done := true } := by
  have hnil : st.heap = [] := eq_nil_of_heapPop_none hp
  refine
    { distLen := hinv.distLen
      prevLen := hinv.prevLen
      distStart := hinv.distStart
      prevStart := hinv.prevStart
      sound := hinv.sound
      heapPos := hinv.heapPos
      heapBound := hinv.heapBound
      link := hinv.link
      chainEx := hinv.chainEx
      pfacts := ⟨hinv.pfacts.pnodes, hinv.pfacts.pnodup, hinv.pfacts.pgoal,
        hinv.pfacts.pset⟩
      pending := ?_
      doneFacts := ?_ }
  · intro hdone'
    simp at hdone'
  · intro _
    left
    refine ⟨hnil, ?_⟩
    intro t l hl
    rcases cover hd hinv.distStart hinv.pfacts.pset (hinv.pending hdone) l t hl with
      h1 | ⟨e, he, _⟩
    · exact h1
    · rw [hnil] at he
      simp at he

theorem sum_filter_cons {net : SpaceNetwork α} {P : List Nat} {u : Nat}
    (hu : u < net.locations.length) (huP : u ∉ P) :
    (∑ v ∈ (Finset.range net.locations.length).filter (fun v => v ∉ u :: P),
        ((net.adjacency.getD v []).length + 1)) +
      ((net.adjacency.getD u []).length + 1) =
    ∑ v ∈ (Finset.range net.locations.length).filter (fun v => v ∉ P),
      ((net.adjacency.getD v []).length + 1) := by
  classical
  have hset : (Finset.range net.locations.length).filter (fun v => v ∉ u :: P) =
      ((Finset.range net.locations.length).filter (fun v => v ∉ P)).erase u := by
    ext x
    simp only [Finset.mem_filter, Finset.mem_range, Finset.mem_erase,
      List.mem_cons, not_or]
    tauto
  rw [hset]
  exact Finset.sum_erase_add _ _ (by simp [huP, hu])

/-- One non-final loop iteration either finishes the loop or strictly
decreases the measure, in both cases preserving the invariant for some
processed set. -/
theorem dijkstraStep_spec {d : Point3 α → Point3 α → α} {net : SpaceNetwork α}
    {start goal : Nat} {P : List Nat} {st : DState α}
    (hd : ∀ p q, 0 ≤ d p q)
    (hwlen : net.adjacency.length = net.locations.length)
    (hwadj : ∀ l ∈ net.adjacency, ∀ x ∈ l, x < net.locations.length)
    (hinv : LoopInv d net start goal P st) (hdone : st.done = false) :
    ∃ P', LoopInv d net start goal P' (dijkstraStep d net goal st) ∧
      ((dijkstraStep d net goal st).done = true ∨
        searchMeasure net P' (dijkstraStep d net goal st) + 1 ≤
          searchMeasure net P st) := by
  rcases hp : heapPop st.heap with _ | ⟨s, rest⟩
  · refine ⟨P, ?_, Or.inl ?_⟩
    · simp only [dijkstraStep, hp]
      exact loopInv_empty hd hinv hdone hp
    · simp only [dijkstraStep, hp]
  · obtain ⟨hmem, hlen, hsub, hdec, hmin⟩ := heapPop_spec hp
    by_cases hstale : dGet st.dist s.position < (s.cost : WithTop α)
    · refine ⟨P, ?_, Or.inr ?_⟩
      · simp only [dijkstraStep, hp, if_pos hstale]
        exact loopInv_skip hinv hdone hp hstale
      · simp only [dijkstraStep, hp, if_pos hstale]
        unfold searchMeasure
        dsimp only
        omega
    · by_cases hgoal : s.position = goal
      · refine ⟨P, ?_, Or.inl ?_⟩
        · simp only [dijkstraStep, hp, if_neg hstale, if_pos hgoal]
          exact loopInv_break hd hinv hdone hp hstale hgoal
        · simp only [dijkstraStep, hp, if_neg hstale, if_pos hgoal]
      · by_cases hP : s.position ∈ P
        · refine ⟨P, ?_, Or.inr ?_⟩
          · simp only [dijkstraStep, hp, if_neg hstale, if_neg hgoal]
            rw [reprocess_noop hinv hp hstale hP]
            exact loopInv_reprocess hinv hdone hp hstale hP
          · simp only [dijkstraStep, hp, if_neg hstale, if_neg hgoal]
            rw [reprocess_noop hinv hp hstale hP]
            unfold searchMeasure
            dsimp only
            omega
        · have hu : s.position < net.locations.length := hinv.heapPos s hmem
          have hmid0 := midInv_enter hd hinv hdone hp hstale hP
          have hmid := midInv_fold hd hwlen hwadj hu
            (net.adjacency.getD s.position []) { st with heap := rest }
            (fun x hx => hx) hmid0
          have hexit := midInv_exit hd hu hgoal hP hmid
          refine ⟨s.position :: P, ?_, Or.inr ?_⟩
          · simp only [dijkstraStep, hp, if_neg hstale, if_neg hgoal]
            exact hexit
          · simp only [dijkstraStep, hp, if_neg hstale, if_neg hgoal]
            have hheap := @relaxFold_heap_le α _ d net s.position s.cost
              (net.adjacency.getD s.position []) { st with heap := rest }
            have hsum := @sum_filter_cons α _ net P s.position hu hP
            unfold searchMeasure
            simp only [DState.heap] at hheap ⊢
            omega

theorem dGet_replicate_top (n i : Nat) :
    dGet (List.replicate n (⊤ : WithTop α)) i = ⊤ := by
  unfold dGet
  induction n generalizing i with
  | zero => cases i <;> rfl
  | succ n ih =>
    cases i with
    | zero => rfl
    | succ i => simpa [List.replicate] using ih i

theorem pGet_replicate_none (n i : Nat) :
    pGet (List.replicate n (none : Option Nat)) i = none := by
  unfold pGet
  induction n generalizing i with
  | zero => cases i <;> rfl
  | succ n ih =>
    cases i with
    | zero => rfl
    | succ i => simpa [List.replicate] using ih i

theorem run_frozen {d : Point3 α → Point3 α → α} {net : SpaceNetwork α}
    {goal : Nat} : ∀ (fuel : Nat) (st : DState α), st.done = true →
    dijkstraRun d net goal fuel st = st := by
  intro fuel st hdone
  cases fuel with
  | zero => rfl
  | succ f => simp [dijkstraRun, hdone]

/-- Running the loop with enough fuel reaches a `done` state satisfying the
invariant. -/
theorem dijkstraRun_master {d : Point3 α → Point3 α → α} {net : SpaceNetwork α}
    {start goal : Nat}
    (hd : ∀ p q, 0 ≤ d p q)
    (hwlen : net.adjacency.length = net.locations.length)
    (hwadj : ∀ l ∈ net.adjacency, ∀ x ∈ l, x < net.locations.length) :
    ∀ (fuel : Nat) (P : List Nat) (st : DState α),
      LoopInv d net start goal P st → searchMeasure net P st + 1 ≤ fuel →
      ∃ P', LoopInv d net start goal P' (dijkstraRun d net goal fuel st) ∧
        (dijkstraRun d net goal fuel st).done = true := by
  intro fuel
  induction fuel with
  | zero =>
    intro P st _ h
    omega
  | succ f ih =>
    intro P st hinv hfuel
    by_cases hdone : st.done = true
    · rw [run_frozen (f + 1) st hdone]
      exact ⟨P, hinv, hdone⟩
    · have hdone' : st.done = false := by
        revert hdone
        cases st.done <;> simp
      have hrun : dijkstraRun d net goal (f + 1) st =
          dijkstraRun d net goal f (dijkstraStep d net goal st) := by
        simp [dijkstraRun, hdone']
      rw [hrun]
      obtain ⟨P', hinv', hcase⟩ := dijkstraStep_spec hd hwlen hwadj hinv hdone'
      rcases hcase with hfin | hdec
      · rw [run_frozen f _ hfin]
        exact ⟨P', hinv', hfin⟩
      · exact ih P' _ hinv' (by omega)

/-- The invariant holds at the initial state of the search. -/
theorem loopInv_init {d : Point3 α → Point3 α → α} {net : SpaceNetwork α}
    {start goal : Nat}
    (hs : start < net.locations.length) :
    LoopInv d net start goal []
      { dist := listUpdate (List.replicate net.locations.length (⊤ : WithTop α))
          start (fun _ => ((0 : α) : WithTop α))
        prev := List.replicate net.locations.length none
        heap := [⟨0, start⟩]
        done := false } := by
  have hlen0 : start < (List.replicate net.locations.length (⊤ : WithTop α)).length := by
    simpa using hs
  have hD0 : dGet (listUpdate (List.replicate net.locations.length (⊤ : WithTop α))
      start (fun _ => ((0 : α) : WithTop α))) start = ((0 : α) : WithTop α) :=
    dGet_update_self hlen0 _
  have hDne : ∀ v, v ≠ start →
      dGet (listUpdate (List.replicate net.locations.length (⊤ : WithTop α))
        start (fun _ => ((0 : α) : WithTop α))) v = ⊤ := by
    intro v hv
    rw [dGet_update_ne (fun e => hv e.symm), dGet_replicate_top]
  refine
    { distLen := by simpa using rfl
      prevLen := by simp
      distStart := hD0
      prevStart := pGet_replicate_none _ _
      sound := ?_
      heapPos := ?_
      heapBound := ?_
      link := ?_
      chainEx := ?_
      pfacts := ⟨by simp, by simp, by simp, by simp⟩
      pending := ?_
      doneFacts := by simp }
  · intro v c hv
    by_cases hvs : v = start
    · subst hvs
      rw [hD0] at hv
      have : (0 : α) = c := WithTop.coe_inj.mp hv
      exact ⟨[v], isTrailFrom_single net v, by simp [← this]⟩
    · rw [hDne v hvs] at hv
      simp at hv
  · intro e he
    simp only [List.mem_singleton] at he
    subst he
    exact hs
  · intro e he
    simp only [List.mem_singleton] at he
    subst he
    exact ⟨le_of_eq hD0, le_refl 0⟩
  · intro v u hvu
    rw [pGet_replicate_none] at hvu
    simp at hvu
  · intro v hv
    by_cases hvs : v = start
    · subst hvs
      exact ⟨[v], Chain.base (pGet_replicate_none _ _)⟩
    · rw [hDne v hvs] at hv
      simp at hv
  · intro _ v c hv
    by_cases hvs : v = start
    · subst hvs
      rw [hD0] at hv
      have h0c : (0 : α) = c := WithTop.coe_inj.mp hv
      right
      exact ⟨⟨0, v⟩, by simp, rfl, h0c⟩
    · rw [hDne v hvs] at hv
      simp at hv

/-- The initial measure is below the chosen fuel. -/
theorem initMeasure_lt {net : SpaceNetwork α}
    (hwlen : net.adjacency.length = net.locations.length) (st : DState α)
    (hheap : st.heap.length = 1) :
    searchMeasure net [] st + 1 ≤ searchFuel net := by
  unfold searchMeasure searchFuel
  have hfilter : (Finset.range net.locations.length).filter
      (fun v => v ∉ ([] : List Nat)) = Finset.range net.locations.length := by
    simp
  rw [hfilter, hheap]
  have hsum : (∑ v ∈ Finset.range net.locations.length,
      ((net.adjacency.getD v []).length + 1)) =
      (∑ v ∈ Finset.range net.locations.length,
        (net.adjacency.getD v []).length) + net.locations.length := by
    rw [Finset.sum_add_distrib]
    simp
  rw [hsum]
  unfold degSum
  rw [hwlen]
  omega

theorem LoopInv.linkMono {d : Point3 α → Point3 α → α} {net : SpaceNetwork α}
    {start goal : Nat} {P : List Nat} {st : DState α}
    (hinv : LoopInv d net start goal P st) :
    ∀ x y, pGet st.prev x = some y → dGet st.dist y ≤ dGet st.dist x :=
  fun x y hxy => (hinv.link x y hxy).2.2.2.2.2.1

/-- Once the loop has exited, every predecessor link lying at or below the
goal's distance is exact: `dist v = dist u + w(u, v)`. -/
theorem link_tight {d : Point3 α → Point3 α → α} {net : SpaceNetwork α}
    {start goal : Nat} {P : List Nat} {st : DState α}
    (hd : ∀ p q, 0 ≤ d p q)
    (hinv : LoopInv d net start goal P st)
    (hdone : st.done = true) {cg : α}
    (hgd : dGet st.dist goal = (cg : WithTop α)) :
    ∀ v u, pGet st.prev v = some u → dGet st.dist v ≤ (cg : WithTop α) →
      ∃ cu : α, dGet st.dist u = (cu : WithTop α) ∧
        dGet st.dist v = ((cu + edgeW d net u v : α) : WithTop α) := by
  intro v u hvu hvb
  obtain ⟨hvn, hun, hvs, hug', hvadj, hmono', cu, hcu, hdv, hdisj⟩ :=
    hinv.link v u hvu
  rcases hdisj with h1 | h1 | ⟨e, he, hep, hec⟩
  · exact ⟨cu, h1, hdv⟩
  · obtain ⟨cu₀, hdu₀, _, hrel₀⟩ := hinv.pfacts.pset u h1
    have h2 : dGet st.dist v ≤ ((cu₀ + edgeW d net u v : α) : WithTop α) :=
      hrel₀ v hvadj
    rw [hdv, WithTop.coe_le_coe] at h2
    have h3 : cu ≤ cu₀ := by linarith
    have h4 : cu₀ ≤ cu := by
      rw [hdu₀, WithTop.coe_le_coe] at hcu
      exact hcu
    have : cu₀ = cu := le_antisymm h4 h3
    exact ⟨cu, this ▸ hdu₀, hdv⟩
  · rcases hinv.doneFacts hdone with ⟨hnil, _⟩ | ⟨cg', hgd', hhigh, _⟩
    · rw [hnil] at he
      simp at he
    · have hcg : cg' = cg := by
        rw [hgd] at hgd'
        exact WithTop.coe_inj.mp hgd'.symm
      subst hcg
      have h2 : cg' ≤ e.cost := hhigh e he
      have h3 : dGet st.dist u = (e.cost : WithTop α) := hec.symm
      -- dist u ≥ cg', dist v ≤ cg', dist u ≤ dist v forces equality and w = 0
      have h4 : (cg' : WithTop α) ≤ dGet st.dist u := by
        rw [h3]
        exact_mod_cast h2
      have h5 : dGet st.dist u ≤ (cg' : WithTop α) := le_trans hmono' hvb
      have h6 : dGet st.dist u = (cg' : WithTop α) := le_antisymm h5 h4
      have h7 : cu + edgeW d net u v ≤ cg' := by
        have := le_trans (le_of_eq hdv.symm) hvb
        exact_mod_cast this
      have h8 : cg' ≤ cu := by
        rw [h6, WithTop.coe_le_coe] at hcu
        exact hcu
      have h9 : 0 ≤ edgeW d net u v := hd _ _
      have h10 : cu = cg' := by linarith
      exact ⟨cu, by rw [h6, h10], hdv⟩

/-- Walking the exact predecessor links from any node below the bound
reconstructs a trail from `start` whose cost is the node's distance. -/
theorem chain_reconstruct {d : Point3 α → Point3 α → α} {net : SpaceNetwork α}
    {start goal : Nat} {P : List Nat} {st : DState α}
    (hd : ∀ p q, 0 ≤ d p q)
    (hinv : LoopInv d net start goal P st) {b : WithTop α}
    (htight : ∀ v u, pGet st.prev v = some u → dGet st.dist v ≤ b →
      ∃ cu : α, dGet st.dist u = (cu : WithTop α) ∧
        dGet st.dist v = ((cu + edgeW d net u v : α) : WithTop α)) :
    ∀ {v : Nat} {L : List Nat}, Chain st.prev start v L →
      dGet st.dist v ≤ b →
      IsTrailFrom net start v L.reverse ∧
        dGet st.dist v = ((trailCost d net L.reverse : α) : WithTop α) := by
  intro v L hc
  induction hc with
  | base h0 =>
    intro _
    exact ⟨by simpa using isTrailFrom_single net start, by simpa using hinv.distStart⟩
  | @step v u L hpv hcu hnotin ih =>
    intro hvb
    obtain ⟨cu, hdu, hdv⟩ := htight v u hpv hvb
    have hub : dGet st.dist u ≤ b := by
      refine le_trans ?_ hvb
      rw [hdu, hdv, WithTop.coe_le_coe]
      exact le_add_of_nonneg_right (hd _ _)
    obtain ⟨htrail, hcost⟩ := ih hub
    have hvadj : v ∈ net.adjacency.getD u [] := (hinv.link v u hpv).2.2.2.2.1
    have hlastrev : L.reverse.getLast? = some u := by
      obtain ⟨L', rfl⟩ := hcu.head
      simp
    have hsnoc := @isTrailFrom_snoc α _ d _ _ _ _ _ htrail hvadj
    have hcu_eq : cu = trailCost d net L.reverse := by
      rw [hdu] at hcost
      exact WithTop.coe_inj.mp hcost
    refine ⟨by simpa [List.reverse_cons] using hsnoc.1, ?_⟩
    rw [List.reverse_cons, hsnoc.2, ← hcu_eq, hdv]

/-! ## End-to-end behaviour of `shortestRouteAux` -/

/-- The loop state set up by `shortest_route` before the first iteration:
`dist` all infinite except `dist[start] = 0`, `prev` all `None`, the heap
holding the single entry for `start`. -/
def initState (net : SpaceNetwork α) (start : Nat) : DState α :=
  { dist := listUpdate (List.replicate net.locations.length (⊤ : WithTop α))
      start (fun _ => ((0 : α) : WithTop α))
    prev := List.replicate net.locations.length none
    heap := [⟨0, start⟩]
    done := false }

/-- The loop state after the search loop has exited. -/
def finalState (d : Point3 α → Point3 α → α) (net : SpaceNetwork α)
    (start goal : Nat) : DState α :=
  dijkstraRun d net goal (searchFuel net) (initState net start)

/-- On valid distinct endpoints, `shortestRouteAux` is the goal-distance
test plus path reconstruction over the final loop state. -/
theorem shortestRouteAux_run {d : Point3 α → Point3 α → α}
    {net : SpaceNetwork α} {start goal : Nat}
    (hs : start < net.locations.length) (hg : goal < net.locations.length)
    (hne : start ≠ goal) :
    shortestRouteAux d net start goal =
      if h : dGet (finalState d net start goal).dist goal = ⊤ then none
      else some ⟨(follow (finalState d net start goal).prev
          net.locations.length goal).reverse,
        (dGet (finalState d net start goal).dist goal).untop h⟩ := by
  unfold shortestRouteAux finalState initState
  rw [SpaceNetwork.is_valid_of_lt hs, SpaceNetwork.is_valid_of_lt hg]
  simp [hne]

/-- The master theorem applied at the initial state: the search loop exits
within the allotted fuel and its final state satisfies the invariant. -/
theorem run_final {d : Point3 α → Point3 α → α} {net : SpaceNetwork α}
    {start goal : Nat}
    (hd : ∀ p q, 0 ≤ d p q)
    (hwlen : net.adjacency.length = net.locations.length)
    (hwadj : ∀ l ∈ net.adjacency, ∀ x ∈ l, x < net.locations.length)
    (hs : start < net.locations.length) :
    ∃ P, LoopInv d net start goal P (finalState d net start goal) ∧
      (finalState d net start goal).done = true := by
  obtain ⟨P, hinv, hdone⟩ := dijkstraRun_master hd hwlen hwadj (searchFuel net)
    [] (initState net start) (loopInv_init hs) (initMeasure_lt hwlen _ rfl)
  exact ⟨P, hinv, hdone⟩

/-- Any route returned on valid distinct endpoints is a directed trail from
`start` to `goal`, its reported distance is the recomputed cost of that
trail, and no directed trail from `start` to `goal` is cheaper. -/
theorem shortestRouteAux_some_spec {d : Point3 α → Point3 α → α}
    {net : SpaceNetwork α} {start goal : Nat} {r : Route α}
    (hd : ∀ p q, 0 ≤ d p q)
    (hwlen : net.adjacency.length = net.locations.length)
    (hwadj : ∀ l ∈ net.adjacency, ∀ x ∈ l, x < net.locations.length)
    (hs : start < net.locations.length) (hg : goal < net.locations.length)
    (hne : start ≠ goal)
    (hr : shortestRouteAux d net start goal = some r) :
    IsTrailFrom net start goal r.locations ∧
      r.total_distance = trailCost d net r.locations ∧
      (∀ l, IsTrailFrom net start goal l →
        r.total_distance ≤ trailCost d net l) := by
  obtain ⟨P, hinv, hdone⟩ := run_final hd hwlen hwadj hs
  rw [shortestRouteAux_run hs hg hne] at hr
  set stF := finalState d net start goal with hstF
  split at hr
  · exact absurd hr (by simp)
  · rename_i hnt
    obtain ⟨cg, hgd⟩ := exists_coe_of_ne_top hnt
    have hrr := Option.some.inj hr
    obtain ⟨L, hchain⟩ := hinv.chainEx goal (by rw [hgd]; exact WithTop.coe_ne_top)
    have htight := link_tight hd hinv hdone hgd
    obtain ⟨htrail, hcost⟩ :=
      chain_reconstruct hd hinv htight hchain (le_of_eq hgd)
    have hb : ∀ x y, pGet stF.prev x = some y → x < net.locations.length :=
      fun x y hxy => (hinv.link x y hxy).1
    have hLlen : L.length ≤ net.locations.length :=
      nodup_bounded_length_le hchain.nodup (hchain.bounded hs hb)
    have hfollow : follow stF.prev net.locations.length goal = L :=
      follow_of_chain hchain _ (by omega)
    have hcg : (dGet stF.dist goal).untop hnt = cg := by
      have h1 : ((dGet stF.dist goal).untop hnt : WithTop α) = dGet stF.dist goal :=
        WithTop.coe_untop _ _
      exact WithTop.coe_inj.mp (h1.trans hgd)
    have hloc : r.locations = L.reverse := by
      rw [← hrr, hfollow]
    have htc : cg = trailCost d net L.reverse := by
      rw [hgd] at hcost
      exact WithTop.coe_inj.mp hcost
    have htd : r.total_distance = cg := by
      rw [← hrr, hcg]
    refine ⟨?_, ?_, ?_⟩
    · rw [hloc]; exact htrail
    · rw [hloc, htd, htc]
    · intro l htl
      rw [htd]
      rcases hinv.doneFacts hdone with ⟨_, hmin⟩ | ⟨cg', hgd', _, hminAll⟩
      · have hle := hmin goal l htl
        rw [hgd] at hle
        exact_mod_cast hle
      · have hc' : cg' = cg := by
          rw [hgd] at hgd'
          exact WithTop.coe_inj.mp hgd'.symm
        rw [← hc']
        exact hminAll l htl

/-- `shortestRouteAux` returns `none` on valid handles exactly when the goal
is not reachable from the start. -/
theorem shortestRouteAux_none_iff {d : Point3 α → Point3 α → α}
    {net : SpaceNetwork α} {start goal : Nat}
    (hd : ∀ p q, 0 ≤ d p q)
    (hwlen : net.adjacency.length = net.locations.length)
    (hwadj : ∀ l ∈ net.adjacency, ∀ x ∈ l, x < net.locations.length)
    (hs : start < net.locations.length) (hg : goal < net.locations.length) :
    (shortestRouteAux d net start goal = none ↔ ¬ Reachable net start goal) := by
  by_cases hne : start = goal
  · subst hne
    have hsome : shortestRouteAux d net start start = some (Route.singleton start) := by
      simp [shortestRouteAux, SpaceNetwork.is_valid_of_lt hs]
    constructor
    · intro h
      rw [hsome] at h
      exact absurd h (by simp)
    · intro h
      exact absurd ⟨[start], isTrailFrom_single net start⟩ h
  · obtain ⟨P, hinv, hdone⟩ := run_final hd hwlen hwadj hs
    rw [shortestRouteAux_run hs hg hne]
    set stF := finalState d net start goal with hstF
    constructor
    · intro h hreach
      obtain ⟨l, htl⟩ := hreach
      have htop : dGet stF.dist goal = ⊤ := by
        by_contra hnt
        rw [dif_neg hnt] at h
        exact absurd h (by simp)
      rcases hinv.doneFacts hdone with ⟨_, hmin⟩ | ⟨cg, hgd, _, _⟩
      · have hle := hmin goal l htl
        rw [htop, top_le_iff] at hle
        exact WithTop.coe_ne_top hle
      · rw [htop] at hgd
        exact WithTop.coe_ne_top hgd.symm
    · intro hnr
      by_cases htop : dGet stF.dist goal = ⊤
      · rw [dif_pos htop]
      · obtain ⟨cg, hgd⟩ := exists_coe_of_ne_top htop
        obtain ⟨l, htl, _⟩ := hinv.sound goal cg hgd
        exact absurd ⟨l, htl⟩ hnr

/-- Left-to-right accumulator recomputation of a route's total distance.
This definition deliberately follows the spec's wording of the round-trip
check ("the sum, recomputed independently in left-to-right order, of the
distances between each consecutive pair of locations"), to be compared
against the `total_distance` the search reports. -/
def recompute (d : Point3 α → Point3 α → α) (net : SpaceNetwork α) :
    α → List Nat → α
  | acc, u :: v :: rest => recompute d net (acc + edgeW d net u v) (v :: rest)
  | acc, _ => acc

theorem recompute_eq_trailCost (d : Point3 α → Point3 α → α)
    (net : SpaceNetwork α) : ∀ (l : List Nat) (acc : α),
    recompute d net acc l = acc + trailCost d net l := by
  intro l
  induction l with
  | nil => intro acc; simp [recompute]
  | cons u rest ih =>
    intro acc
    cases rest with
    | nil => simp [recompute]
    | cons v rest' =>
      simp only [recompute, trailCost_cons₂]
      rw [ih]
      ring

/-! ## A bounds-checked interpreter of the search (safety claim)

The same computation, but every vector access the source performs
(`dist[idx]`, `self.adjacency[idx]`, `self.locations[idx]`,
`self.locations[n_idx]`, `dist[n_idx]`, `prev[n_idx]`, `dist[goal.0]` and
the `prev[id.0]` reads of the reconstruction walk) carries its bounds
check, and the whole computation aborts with `none` if any index were out
of range; the loop and reconstruction fuels abort with `none` when
exhausted instead of returning a partial state.  Proving the checked
interpreter never aborts and agrees with `shortestRouteAux` shows every
index is in bounds and both loops terminate. -/

/-- Checked read of a stored location's position (`self.locations[i]`). -/
def locGet? (net : SpaceNetwork α) (i : Nat) : Option (Point3 α) :=
  (net.locations.get? i).map Location.position

/-- Checked version of one relaxation. -/
def relaxOneC (d : Point3 α → Point3 α → α) (net : SpaceNetwork α)
    (u : Nat) (c : α) (ost : Option (DState α)) (v : Nat) : Option (DState α) :=
  match ost with
  | none => none
  | some st =>
    match locGet? net u, locGet? net v, st.dist.get? v with
    | some pu, some pv, some dv =>
      if ((c + d pu pv : α) : WithTop α) < dv then
        if v < st.dist.length ∧ v < st.prev.length then
          some { st with
            dist := listUpdate st.dist v (fun _ => ((c + d pu pv : α) : WithTop α))
            prev := listUpdate st.prev v (fun _ => some u)
            heap := ⟨c + d pu pv, v⟩ :: st.heap }
        else none
      else some st
    | _, _, _ => none

/-- Checked version of one loop iteration. -/
def dijkstraStepC (d : Point3 α → Point3 α → α) (net : SpaceNetwork α)
    (goal : Nat) (st : DState α) : Option (DState α) :=
  match heapPop st.heap with
  | none => some { st with done := true }
  | some (s, rest) =>
    match st.dist.get? s.position with
    | none => none
    | some ds =>
      if ds < (s.cost : WithTop α) then some { st with heap := rest }
      else if s.position = goal then some { st with heap := rest, done := true }
      else
        match net.adjacency.get? s.position with
        | none => none
        | some ns =>
          ns.foldl (relaxOneC d net s.position s.cost) (some { st with heap := rest })

/-- Checked version of the loop; exhausted fuel with the loop still running
is an abort, not a result. -/
def dijkstraRunC (d : Point3 α → Point3 α → α) (net : SpaceNetwork α)
    (goal : Nat) : Nat → DState α → Option (DState α)
  | 0, st => if st.done then some st else none
  | fuel + 1, st =>
    if st.done then some st
    else
      match dijkstraStepC d net goal st with
      | none => none
      | some st' => dijkstraRunC d net goal fuel st'

/-- Checked version of the reconstruction walk. -/
def followC (prev : List (Option Nat)) : Nat → Nat → Option (List Nat)
  | 0, v =>
    match prev.get? v with
    | none => none
    | some none => some [v]
    | some (some _) => none
  | fuel + 1, v =>
    match prev.get? v with
    | none => none
    | some none => some [v]
    | some (some u) => (followC prev fuel u).map (fun l => v :: l)

/-- Checked version of the whole search. -/
def shortestRouteChecked (d : Point3 α → Point3 α → α) (net : SpaceNetwork α)
    (start goal : Nat) : Option (Option (Route α)) :=
  if !(net.is_valid start) || !(net.is_valid goal) then some none
  else if start = goal then some (some (Route.singleton start))
  else
    let n := net.locations.length
    if start < n then
      match dijkstraRunC d net goal (searchFuel net) (initState net start) with
      | none => none
      | some stF =>
        match stF.dist.get? goal with
        | none => none
        | some gd =>
          if h : gd = ⊤ then some none
          else
            match followC stF.prev n goal with
            | none => none
            | some ids => some (some ⟨ids.reverse, gd.untop h⟩)
    else none

theorem get?_eq_getD_of_lt {l : List β} {i : Nat} (h : i < l.length) (dflt : β) :
    l.get? i = some (l.getD i dflt) := by
  induction l generalizing i with
  | nil => simp at h
  | cons a t ih =>
    cases i with
    | zero => rfl
    | succ i => simpa using ih (by simpa using h)

theorem relaxOne_lengths {d : Point3 α → Point3 α → α} {net : SpaceNetwork α}
    {u : Nat} {c : α} (st : DState α) (v : Nat) :
    (relaxOne d net u c st v).dist.length = st.dist.length ∧
    (relaxOne d net u c st v).prev.length = st.prev.length := by
  by_cases h : ((c + edgeW d net u v : α) : WithTop α) < dGet st.dist v
  · rw [relaxOne_update h]
    exact ⟨by simp, by simp⟩
  · rw [relaxOne_no_update h]
    exact ⟨rfl, rfl⟩

theorem relaxOneC_eq {d : Point3 α → Point3 α → α} {net : SpaceNetwork α}
    {u c v} {st : DState α}
    (hu : u < net.locations.length) (hv : v < net.locations.length)
    (hdl : st.dist.length = net.locations.length)
    (hpl : st.prev.length = net.locations.length) :
    relaxOneC d net u c (some st) v = some (relaxOne d net u c st v) := by
  have hug : locGet? net u = some (posAt net u) := by
    unfold locGet? posAt
    rw [get?_eq_getD_of_lt hu default]
    rfl
  have hvg : locGet? net v = some (posAt net v) := by
    unfold locGet? posAt
    rw [get?_eq_getD_of_lt hv default]
    rfl
  have hdvg : st.dist.get? v = some (dGet st.dist v) := by
    unfold dGet
    exact get?_eq_getD_of_lt (by omega) ⊤
  by_cases hlt : ((c + edgeW d net u v : α) : WithTop α) < dGet st.dist v
  · rw [relaxOne_update hlt]
    unfold relaxOneC
    dsimp only
    rw [hug, hvg, hdvg]
    dsimp only
    simp only [edgeW] at hlt ⊢
    rw [if_pos hlt, if_pos ⟨by omega, by omega⟩]
  · rw [relaxOne_no_update hlt]
    unfold relaxOneC
    dsimp only
    rw [hug, hvg, hdvg]
    dsimp only
    simp only [edgeW] at hlt
    rw [if_neg hlt]

theorem relaxFoldC_eq {d : Point3 α → Point3 α → α} {net : SpaceNetwork α}
    {u : Nat} {c : α} (hu : u < net.locations.length) :
    ∀ (ns : List Nat) (st : DState α),
      (∀ v ∈ ns, v < net.locations.length) →
      st.dist.length = net.locations.length →
      st.prev.length = net.locations.length →
      ns.foldl (relaxOneC d net u c) (some st) =
        some (ns.foldl (relaxOne d net u c) st) := by
  intro ns
  induction ns with
  | nil =>
    intro st _ _ _
    rfl
  | cons v ns ih =>
    intro st hns hdl hpl
    have hv : v < net.locations.length := hns v (by simp)
    simp only [List.foldl_cons]
    rw [relaxOneC_eq hu hv hdl hpl]
    exact ih _ (fun x hx => hns x (by simp [hx]))
      ((relaxOne_lengths st v).1.trans hdl)
      ((relaxOne_lengths st v).2.trans hpl)

theorem dijkstraStepC_eq {d : Point3 α → Point3 α → α} {net : SpaceNetwork α}
    {start goal : Nat} {P : List Nat} {st : DState α}
    (hwlen : net.adjacency.length = net.locations.length)
    (hwadj : ∀ l ∈ net.adjacency, ∀ x ∈ l, x < net.locations.length)
    (hinv : LoopInv d net start goal P st) :
    dijkstraStepC d net goal st = some (dijkstraStep d net goal st) := by
  unfold dijkstraStepC dijkstraStep
  cases hp : heapPop st.heap with
  | none => rfl
  | some pr =>
    obtain ⟨s, rest⟩ := pr
    have hsmem : s ∈ st.heap := (heapPop_spec hp).1
    have hspos : s.position < net.locations.length := hinv.heapPos s hsmem
    have hdg : st.dist.get? s.position = some (dGet st.dist s.position) := by
      unfold dGet
      exact get?_eq_getD_of_lt (by rw [hinv.distLen]; exact hspos) ⊤
    dsimp only
    rw [hdg]
    dsimp only
    by_cases hstale : dGet st.dist s.position < (s.cost : WithTop α)
    · rw [if_pos hstale, if_pos hstale]
    · rw [if_neg hstale, if_neg hstale]
      by_cases hgoal : s.position = goal
      · rw [if_pos hgoal, if_pos hgoal]
      · rw [if_neg hgoal, if_neg hgoal]
        have hadjg : net.adjacency.get? s.position =
            some (net.adjacency.getD s.position []) :=
          get?_eq_getD_of_lt (by rw [hwlen]; exact hspos) []
        rw [hadjg]
        dsimp only
        refine relaxFoldC_eq hspos _ _ ?_ ?_ ?_
        · intro v hv
          exact hwadj _ (getD_mem_of_lt (by rw [hwlen]; exact hspos)) v hv
        · exact hinv.distLen
        · exact hinv.prevLen

theorem dijkstraRunC_eq {d : Point3 α → Point3 α → α} {net : SpaceNetwork α}
    {start goal : Nat}
    (hd : ∀ p q, 0 ≤ d p q)
    (hwlen : net.adjacency.length = net.locations.length)
    (hwadj : ∀ l ∈ net.adjacency, ∀ x ∈ l, x < net.locations.length) :
    ∀ (fuel : Nat) (P : List Nat) (st : DState α),
      LoopInv d net start goal P st → searchMeasure net P st + 1 ≤ fuel →
      dijkstraRunC d net goal fuel st = some (dijkstraRun d net goal fuel st) := by
  intro fuel
  induction fuel with
  | zero =>
    intro P st _ h
    omega
  | succ f ih =>
    intro P st hinv hfuel
    by_cases hdone : st.done = true
    · rw [run_frozen (f + 1) st hdone]
      simp [dijkstraRunC, hdone]
    · have hdone' : st.done = false := by
        revert hdone
        cases st.done <;> simp
      have hstep := dijkstraStepC_eq hwlen hwadj hinv
      have hrun : dijkstraRun d net goal (f + 1) st =
          dijkstraRun d net goal f (dijkstraStep d net goal st) := by
        simp [dijkstraRun, hdone']
      have hrunC : dijkstraRunC d net goal (f + 1) st =
          dijkstraRunC d net goal f (dijkstraStep d net goal st) := by
        simp [dijkstraRunC, hdone', hstep]
      rw [hrun, hrunC]
      obtain ⟨P', hinv', hcase⟩ := dijkstraStep_spec hd hwlen hwadj hinv hdone'
      rcases hcase with hfin | hdec
      · rw [run_frozen f _ hfin]
        cases f with
        | zero => simp [dijkstraRunC, hfin]
        | succ f' => simp [dijkstraRunC, hfin]
      · exact ih P' _ hinv' (by omega)

theorem followC_of_chain {p : List (Option Nat)} {start v : Nat} {L : List Nat}
    (h : Chain p start v L) (hmem : ∀ x ∈ L, x < p.length) :
    ∀ fuel, L.length ≤ fuel + 1 → followC p fuel v = some L := by
  induction h with
  | base h0 =>
    intro fuel _
    have hg : p.get? start = some (pGet p start) := by
      unfold pGet
      exact get?_eq_getD_of_lt (hmem start (by simp)) none
    rw [h0] at hg
    cases fuel with
    | zero =>
      simp only [followC]
      rw [hg]
    | succ f =>
      simp only [followC]
      rw [hg]
  | @step v u L hpv hc hnotin ih =>
    intro fuel hlen
    have hg : p.get? v = some (pGet p v) := by
      unfold pGet
      exact get?_eq_getD_of_lt (hmem v (by simp)) none
    rw [hpv] at hg
    obtain ⟨L', rfl⟩ := hc.head
    cases fuel with
    | zero =>
      simp only [List.length_cons] at hlen
      omega
    | succ f =>
      simp only [followC, hg]
      rw [ih (fun x hx => hmem x (by simp [hx])) f
        (by simp only [List.length_cons] at hlen ⊢; omega)]
      rfl

/-- Under the structural invariant, the fully-checked interpreter never
aborts and computes exactly what `shortestRouteAux` computes: every index
the source performs is in bounds, and both the search loop and the
reconstruction walk terminate. -/
theorem shortestRouteChecked_eq {d : Point3 α → Point3 α → α}
    {net : SpaceNetwork α}
    (hd : ∀ p q, 0 ≤ d p q)
    (hwlen : net.adjacency.length = net.locations.length)
    (hwadj : ∀ l ∈ net.adjacency, ∀ x ∈ l, x < net.locations.length)
    (start goal : Nat) :
    shortestRouteChecked d net start goal =
      some (shortestRouteAux d net start goal) := by
  by_cases hs : start < net.locations.length
  · by_cases hg : goal < net.locations.length
    · by_cases hne : start = goal
      · subst hne
        simp [shortestRouteChecked, shortestRouteAux,
          SpaceNetwork.is_valid_of_lt hs]
      · obtain ⟨P, hinv, hdone⟩ := run_final hd hwlen hwadj hs
        rw [shortestRouteAux_run hs hg hne]
        unfold shortestRouteChecked
        rw [SpaceNetwork.is_valid_of_lt hs, SpaceNetwork.is_valid_of_lt hg]
        simp only [Bool.not_true, Bool.or_self, Bool.false_eq_true, if_false,
          if_neg hne, if_pos hs]
        have hrunC : dijkstraRunC d net goal (searchFuel net) (initState net start) =
            some (finalState d net start goal) :=
          dijkstraRunC_eq hd hwlen hwadj _ [] _ (loopInv_init hs)
            (initMeasure_lt hwlen _ rfl)
        rw [hrunC]
        set stF := finalState d net start goal with hstF
        clear_value stF
        have hget : stF.dist.get? goal = some (dGet stF.dist goal) := by
          unfold dGet
          exact get?_eq_getD_of_lt (by rw [hinv.distLen]; exact hg) ⊤
        dsimp only
        rw [hget]
        dsimp only
        by_cases htop : dGet stF.dist goal = ⊤
        · rw [dif_pos htop, dif_pos htop]
        · rw [dif_neg htop, dif_neg htop]
          obtain ⟨cg, hgd⟩ := exists_coe_of_ne_top htop
          obtain ⟨L, hchain⟩ := hinv.chainEx goal
            (by rw [hgd]; exact WithTop.coe_ne_top)
          have hb : ∀ x y, pGet stF.prev x = some y → x < net.locations.length :=
            fun x y hxy => (hinv.link x y hxy).1
          have hbmem : ∀ x ∈ L, x < stF.prev.length := by
            intro x hx
            rw [hinv.prevLen]
            exact hchain.bounded hs hb x hx
          have hLlen : L.length ≤ net.locations.length :=
            nodup_bounded_length_le hchain.nodup (hchain.bounded hs hb)
          have hfC : followC stF.prev net.locations.length goal = some L :=
            followC_of_chain hchain hbmem _ (by omega)
          have hf : follow stF.prev net.locations.length goal = L :=
            follow_of_chain hchain _ (by omega)
          rw [hfC, hf]
    · simp [shortestRouteChecked, shortestRouteAux, SpaceNetwork.not_is_valid hg]
  · simp [shortestRouteChecked, shortestRouteAux, SpaceNetwork.not_is_valid hs]

/-! ## Instantiation at `ℝ`: the source's Euclidean metric, and concrete networks -/

/-- Source: `Point3::distance_to` — the straight-line (Euclidean) distance
`(dx*dx + dy*dy + dz*dz).sqrt()`, the `f64` arithmetic idealised over `ℝ`. -/
noncomputable def Point3.distance_to (p other : Point3 ℝ) : ℝ :=
  Real.sqrt ((p.x - other.x) * (p.x - other.x) +
    (p.y - other.y) * (p.y - other.y) + (p.z - other.z) * (p.z - other.z))

theorem Point3.distance_to_nonneg (p q : Point3 ℝ) : 0 ≤ p.distance_to q :=
  Real.sqrt_nonneg _

/-- Source: `SpaceNetwork::shortest_route` — the search instantiated with
the Euclidean metric, as in the source. -/
noncomputable def SpaceNetwork.shortest_route (net : SpaceNetwork ℝ)
    (start goal : Nat) : Option (Route ℝ) :=
  shortestRouteAux Point3.distance_to net start goal

/-- Two locations at distance 5 (a 3-4-5 triangle), joined both ways —
the network of the source's `straight_line_two_nodes` test. -/
def net2 : SpaceNetwork ℝ :=
  { locations := [⟨0, ⟨0, 0, 0⟩⟩, ⟨1, ⟨3, 4, 0⟩⟩]
    adjacency := [[1], [0]] }

theorem sqrt25 : Real.sqrt 25 = 5 := by
  rw [show (25:ℝ) = 5 ^ 2 by norm_num, Real.sqrt_sq (by norm_num : (0:ℝ) ≤ 5)]

theorem net2_fuel : searchFuel net2 = 6 := by
  norm_num [searchFuel, degSum, net2, Finset.sum_range_succ]

/-- One unfolding of the fuelled loop on a still-running state. -/
theorem runStep (fuel : Nat) {d : Point3 α → Point3 α → α}
    {net : SpaceNetwork α} {goal : Nat} {st st' : DState α}
    (hdone : st.done = false) (hstep : dijkstraStep d net goal st = st') :
    dijkstraRun d net goal (fuel + 1) st = dijkstraRun d net goal fuel st' := by
  simp [dijkstraRun, hdone, hstep]

theorem net2_h1 : dijkstraStep Point3.distance_to net2 1
    ⟨[((0:ℝ):WithTop ℝ), ⊤], [none, none], [⟨0,0⟩], false⟩ =
    ⟨[((0:ℝ):WithTop ℝ), ((5:ℝ):WithTop ℝ)], [none, some 0], [⟨5,1⟩], false⟩ := by
  simp only [dijkstraStep, heapPop]
  norm_num [dGet, relaxOne, net2, edgeW, posAt, Point3.distance_to, sqrt25]

theorem net2_h2 : dijkstraStep Point3.distance_to net2 1
    ⟨[((0:ℝ):WithTop ℝ), ((5:ℝ):WithTop ℝ)], [none, some 0], [⟨5,1⟩], false⟩ =
    ⟨[((0:ℝ):WithTop ℝ), ((5:ℝ):WithTop ℝ)], [none, some 0], [], true⟩ := by
  simp only [dijkstraStep, heapPop]
  norm_num [dGet]

/-- Traced run of the search loop on `net2` from 0 to 1. -/
theorem net2_run : finalState Point3.distance_to net2 0 1 =
    ⟨[((0:ℝ):WithTop ℝ), ((5:ℝ):WithTop ℝ)], [none, some 0], [], true⟩ := by
  have hinit : initState net2 0 =
      ⟨[((0:ℝ):WithTop ℝ), ⊤], [none, none], [⟨0,0⟩], false⟩ := by
    norm_num [initState, net2, List.replicate]
  unfold finalState
  rw [net2_fuel, hinit, runStep 5 rfl net2_h1, runStep 4 rfl net2_h2,
    run_frozen 4 _ rfl]

/-- Concrete evaluation: the route 0 → 1 on `net2` is `[0, 1]` at cost 5. -/
theorem net2_eval : net2.shortest_route 0 1 = some ⟨[0, 1], 5⟩ := by
  unfold SpaceNetwork.shortest_route
  rw [shortestRouteAux_run (by norm_num [net2]) (by norm_num [net2]) (by norm_num),
    net2_run]
  rw [dif_neg (by simp [dGet] : ¬ dGet [((0:ℝ):WithTop ℝ), ((5:ℝ):WithTop ℝ)] 1 = ⊤)]
  norm_num [dGet, follow, pGet, net2]
  rw [WithTop.untop_eq_iff]
  norm_num

/-- The unit square: handles 0..3 with all four sides unit edges, so the
two routes 0→1→3 and 0→2→3 have equal cost 2 — the tie-breaking test
network. -/
def tieNetR : SpaceNetwork ℝ :=
  { locations := [⟨0, ⟨0, 0, 0⟩⟩, ⟨1, ⟨1, 0, 0⟩⟩, ⟨2, ⟨0, 1, 0⟩⟩, ⟨3, ⟨1, 1, 0⟩⟩]
    adjacency := [[1, 2], [0, 3], [0, 3], [1, 2]] }

theorem tie_fuel : searchFuel tieNetR = 14 := by
  norm_num [searchFuel, degSum, tieNetR, Finset.sum_range_succ]

theorem tie_h1 : dijkstraStep Point3.distance_to tieNetR 3
    ⟨[((0:ℝ):WithTop ℝ), ⊤, ⊤, ⊤], [none, none, none, none], [⟨0,0⟩], false⟩ =
    ⟨[((0:ℝ):WithTop ℝ), ((1:ℝ):WithTop ℝ), ((1:ℝ):WithTop ℝ), ⊤],
      [none, some 0, some 0, none], [⟨1,2⟩, ⟨1,1⟩], false⟩ := by
  simp only [dijkstraStep, heapPop]
  norm_num [dGet, relaxOne, tieNetR, edgeW, posAt, Point3.distance_to, Real.sqrt_one]

theorem wtop_not_lt {a b : ℝ} (h : ¬ a < b) :
    ¬ ((a : WithTop ℝ) < (b : WithTop ℝ)) := by
  rw [WithTop.coe_lt_coe]
  exact h

theorem tie_e20 : edgeW Point3.distance_to tieNetR 2 0 = 1 := by
  simp only [edgeW, posAt, tieNetR, List.getD_cons_zero, List.getD_cons_succ]
  unfold Point3.distance_to
  norm_num

theorem tie_e23 : edgeW Point3.distance_to tieNetR 2 3 = 1 := by
  simp only [edgeW, posAt, tieNetR, List.getD_cons_zero, List.getD_cons_succ]
  unfold Point3.distance_to
  norm_num

theorem tie_e10 : edgeW Point3.distance_to tieNetR 1 0 = 1 := by
  simp only [edgeW, posAt, tieNetR, List.getD_cons_zero, List.getD_cons_succ]
  unfold Point3.distance_to
  norm_num

theorem tie_e13 : edgeW Point3.distance_to tieNetR 1 3 = 1 := by
  simp only [edgeW, posAt, tieNetR, List.getD_cons_zero, List.getD_cons_succ]
  unfold Point3.distance_to
  norm_num

theorem tie_h2 : dijkstraStep Point3.distance_to tieNetR 3
    ⟨[((0:ℝ):WithTop ℝ), ((1:ℝ):WithTop ℝ), ((1:ℝ):WithTop ℝ), ⊤],
      [none, some 0, some 0, none], [⟨1,2⟩, ⟨1,1⟩], false⟩ =
    ⟨[((0:ℝ):WithTop ℝ), ((1:ℝ):WithTop ℝ), ((1:ℝ):WithTop ℝ), ((2:ℝ):WithTop ℝ)],
      [none, some 0, some 0, some 2], [⟨2,3⟩, ⟨1,1⟩], false⟩ := by
  have hpop : heapPop [(⟨1,2⟩ : State ℝ), ⟨1,1⟩] = some (⟨1,2⟩, [⟨1,1⟩]) := by
    simp only [heapPop]
    norm_num
  have h20 : ¬ (((1:ℝ) + edgeW Point3.distance_to tieNetR 2 0 : ℝ) : WithTop ℝ) <
      dGet [((0:ℝ):WithTop ℝ), ((1:ℝ):WithTop ℝ), ((1:ℝ):WithTop ℝ), ⊤] 0 := by
    rw [tie_e20]
    simp only [dGet, List.getD_cons_zero]
    exact wtop_not_lt (by norm_num)
  have r20 : relaxOne Point3.distance_to tieNetR 2 1
      ⟨[((0:ℝ):WithTop ℝ), ((1:ℝ):WithTop ℝ), ((1:ℝ):WithTop ℝ), ⊤],
        [none, some 0, some 0, none], [⟨1,1⟩], false⟩ 0 =
      ⟨[((0:ℝ):WithTop ℝ), ((1:ℝ):WithTop ℝ), ((1:ℝ):WithTop ℝ), ⊤],
        [none, some 0, some 0, none], [⟨1,1⟩], false⟩ :=
    relaxOne_no_update h20
  have h23 : (((1:ℝ) + edgeW Point3.distance_to tieNetR 2 3 : ℝ) : WithTop ℝ) <
      dGet [((0:ℝ):WithTop ℝ), ((1:ℝ):WithTop ℝ), ((1:ℝ):WithTop ℝ), ⊤] 3 := by
    simp only [dGet, List.getD_cons_succ, List.getD_cons_zero]
    exact WithTop.coe_lt_top _
  have r23 : relaxOne Point3.distance_to tieNetR 2 1
      ⟨[((0:ℝ):WithTop ℝ), ((1:ℝ):WithTop ℝ), ((1:ℝ):WithTop ℝ), ⊤],
        [none, some 0, some 0, none], [⟨1,1⟩], false⟩ 3 =
      ⟨[((0:ℝ):WithTop ℝ), ((1:ℝ):WithTop ℝ), ((1:ℝ):WithTop ℝ), ((2:ℝ):WithTop ℝ)],
        [none, some 0, some 0, some 2], [⟨2,3⟩, ⟨1,1⟩], false⟩ := by
    rw [relaxOne_update h23]
    rw [tie_e23]
    norm_num [listUpdate]
  unfold dijkstraStep
  dsimp only
  rw [hpop]
  dsimp only
  rw [if_neg (show ¬ dGet [((0:ℝ):WithTop ℝ), ((1:ℝ):WithTop ℝ), ((1:ℝ):WithTop ℝ), ⊤] 2 <
      ((1:ℝ) : WithTop ℝ) from by
    simp only [dGet, List.getD_cons_succ, List.getD_cons_zero]
    exact wtop_not_lt (by norm_num))]
  rw [if_neg (by norm_num : ¬ (2:Nat) = 3)]
  rw [show tieNetR.adjacency.getD 2 [] = [0, 3] from rfl]
  rw [List.foldl_cons, r20, List.foldl_cons, r23, List.foldl_nil]

theorem tie_h3 : dijkstraStep Point3.distance_to tieNetR 3
    ⟨[((0:ℝ):WithTop ℝ), ((1:ℝ):WithTop ℝ), ((1:ℝ):WithTop ℝ), ((2:ℝ):WithTop ℝ)],
      [none, some 0, some 0, some 2], [⟨2,3⟩, ⟨1,1⟩], false⟩ =
    ⟨[((0:ℝ):WithTop ℝ), ((1:ℝ):WithTop ℝ), ((1:ℝ):WithTop ℝ), ((2:ℝ):WithTop ℝ)],
      [none, some 0, some 0, some 2], [⟨2,3⟩], false⟩ := by
  have hpop : heapPop [(⟨2,3⟩ : State ℝ), ⟨1,1⟩] = some (⟨1,1⟩, [⟨2,3⟩]) := by
    simp only [heapPop]
    norm_num
  have h10 : ¬ (((1:ℝ) + edgeW Point3.distance_to tieNetR 1 0 : ℝ) : WithTop ℝ) <
      dGet [((0:ℝ):WithTop ℝ), ((1:ℝ):WithTop ℝ), ((1:ℝ):WithTop ℝ), ((2:ℝ):WithTop ℝ)] 0 := by
    rw [tie_e10]
    simp only [dGet, List.getD_cons_zero]
    exact wtop_not_lt (by norm_num)
  have r10 : relaxOne Point3.distance_to tieNetR 1 1
      ⟨[((0:ℝ):WithTop ℝ), ((1:ℝ):WithTop ℝ), ((1:ℝ):WithTop ℝ), ((2:ℝ):WithTop ℝ)],
        [none, some 0, some 0, some 2], [⟨2,3⟩], false⟩ 0 =
      ⟨[((0:ℝ):WithTop ℝ), ((1:ℝ):WithTop ℝ), ((1:ℝ):WithTop ℝ), ((2:ℝ):WithTop ℝ)],
        [none, some 0, some 0, some 2], [⟨2,3⟩], false⟩ :=
    relaxOne_no_update h10
  have h13 : ¬ (((1:ℝ) + edgeW Point3.distance_to tieNetR 1 3 : ℝ) : WithTop ℝ) <
      dGet [((0:ℝ):WithTop ℝ), ((1:ℝ):WithTop ℝ), ((1:ℝ):WithTop ℝ), ((2:ℝ):WithTop ℝ)] 3 := by
    rw [tie_e13]
    simp only [dGet, List.getD_cons_succ, List.getD_cons_zero]
    exact wtop_not_lt (by norm_num)
  have r13 : relaxOne Point3.distance_to tieNetR 1 1
      ⟨[((0:ℝ):WithTop ℝ), ((1:ℝ):WithTop ℝ), ((1:ℝ):WithTop ℝ), ((2:ℝ):WithTop ℝ)],
        [none, some 0, some 0, some 2], [⟨2,3⟩], false⟩ 3 =
      ⟨[((0:ℝ):WithTop ℝ), ((1:ℝ):WithTop ℝ), ((1:ℝ):WithTop ℝ), ((2:ℝ):WithTop ℝ)],
        [none, some 0, some 0, some 2], [⟨2,3⟩], false⟩ :=
    relaxOne_no_update h13
  unfold dijkstraStep
  dsimp only
  rw [hpop]
  dsimp only
  rw [if_neg (show ¬ dGet [((0:ℝ):WithTop ℝ), ((1:ℝ):WithTop ℝ), ((1:ℝ):WithTop ℝ),
      ((2:ℝ):WithTop ℝ)] 1 < ((1:ℝ) : WithTop ℝ) from by
    simp only [dGet, List.getD_cons_succ, List.getD_cons_zero]
    exact wtop_not_lt (by norm_num))]
  rw [if_neg (by norm_num : ¬ (1:Nat) = 3)]
  rw [show tieNetR.adjacency.getD 1 [] = [0, 3] from rfl]
  rw [List.foldl_cons, r10, List.foldl_cons, r13, List.foldl_nil]

theorem tie_h4 : dijkstraStep Point3.distance_to tieNetR 3
    ⟨[((0:ℝ):WithTop ℝ), ((1:ℝ):WithTop ℝ), ((1:ℝ):WithTop ℝ), ((2:ℝ):WithTop ℝ)],
      [none, some 0, some 0, some 2], [⟨2,3⟩], false⟩ =
    ⟨[((0:ℝ):WithTop ℝ), ((1:ℝ):WithTop ℝ), ((1:ℝ):WithTop ℝ), ((2:ℝ):WithTop ℝ)],
      [none, some 0, some 0, some 2], [], true⟩ := by
  unfold dijkstraStep
  dsimp only
  rw [show heapPop [(⟨2,3⟩ : State ℝ)] = some (⟨2,3⟩, []) from rfl]
  dsimp only
  rw [if_neg (show ¬ dGet [((0:ℝ):WithTop ℝ), ((1:ℝ):WithTop ℝ), ((1:ℝ):WithTop ℝ),
      ((2:ℝ):WithTop ℝ)] 3 < ((2:ℝ) : WithTop ℝ) from by
    simp only [dGet, List.getD_cons_succ, List.getD_cons_zero]
    exact wtop_not_lt (by norm_num))]
  rw [if_pos rfl]

/-- Traced run of the search loop on the unit square from 0 to 3: after
the start is processed the two equal-cost frontier entries for handles 1
and 2 are pending, and handle 2 — the larger — is popped and relaxed
first, so the goal's predecessor becomes 2. -/
theorem tie_run : finalState Point3.distance_to tieNetR 0 3 =
    ⟨[((0:ℝ):WithTop ℝ), ((1:ℝ):WithTop ℝ), ((1:ℝ):WithTop ℝ), ((2:ℝ):WithTop ℝ)],
      [none, some 0, some 0, some 2], [], true⟩ := by
  have hinit : initState tieNetR 0 =
      ⟨[((0:ℝ):WithTop ℝ), ⊤, ⊤, ⊤], [none, none, none, none], [⟨0,0⟩], false⟩ := by
    norm_num [initState, tieNetR, List.replicate]
  unfold finalState
  rw [tie_fuel, hinit, runStep 13 rfl tie_h1, runStep 12 rfl tie_h2,
    runStep 11 rfl tie_h3, runStep 10 rfl tie_h4, run_frozen 10 _ rfl]

/-- Concrete evaluation: of the two equal-cost routes on the unit square
the search returns the one through the LARGER middle handle. -/
theorem tie_eval : tieNetR.shortest_route 0 3 = some ⟨[0, 2, 3], 2⟩ := by
  unfold SpaceNetwork.shortest_route
  rw [shortestRouteAux_run (by norm_num [tieNetR]) (by norm_num [tieNetR]) (by norm_num),
    tie_run]
  rw [dif_neg (by simp [dGet] :
    ¬ dGet [((0:ℝ):WithTop ℝ), ((1:ℝ):WithTop ℝ), ((1:ℝ):WithTop ℝ), ((2:ℝ):WithTop ℝ)] 3 = ⊤)]
  norm_num [dGet, follow, pGet, tieNetR]
  rw [WithTop.untop_eq_iff]
  norm_num

/-- Of two equal-cost frontier entries the pop takes the larger handle. -/
theorem tie_pop : heapPop [(⟨1, 1⟩ : State ℝ), ⟨1, 2⟩] = some (⟨1, 2⟩, [⟨1, 1⟩]) := by
  simp only [heapPop]
  norm_num

theorem tie_e01 : edgeW Point3.distance_to tieNetR 0 1 = 1 := by
  simp only [edgeW, posAt, tieNetR, List.getD_cons_zero, List.getD_cons_succ]
  unfold Point3.distance_to
  norm_num

/-- The alternative equal-cost route through the smaller middle handle. -/
theorem tie_alt : IsTrailFrom tieNetR 0 3 [0, 1, 3] ∧
    trailCost Point3.distance_to tieNetR [0, 1, 3] = 2 := by
  refine ⟨⟨rfl, rfl, ?_⟩, ?_⟩
  · exact IsTrail.cons (by norm_num [tieNetR])
      (IsTrail.cons (by norm_num [tieNetR]) (IsTrail.single 3))
  · simp only [trailCost_cons₂, trailCost_single]
    rw [tie_e01, tie_e13]
    norm_num

/-- Two isolated locations (no edges): the disconnected test network. -/
def netW : SpaceNetwork ℝ :=
  { locations := [⟨0, ⟨0, 0, 0⟩⟩, ⟨1, ⟨1, 0, 0⟩⟩]
    adjacency := [[], []] }

/-- Each concrete network is reachable through the public operations. -/
theorem netW_built : SpaceNetwork.Built netW := by
  have h : netW = ((SpaceNetwork.new.add_location ⟨0, 0, 0⟩).1.add_location
      ⟨1, 0, 0⟩).1 := by
    rfl
  rw [h]
  exact SpaceNetwork.Built.add (SpaceNetwork.Built.add SpaceNetwork.Built.new)

theorem net2_built : SpaceNetwork.Built net2 := by
  have h : net2 = (((SpaceNetwork.new.add_location ⟨0, 0, 0⟩).1.add_location
      ⟨3, 4, 0⟩).1.connect_bidirectional 0 1).2 := by
    rfl
  rw [h]
  exact SpaceNetwork.Built.connectB
    (SpaceNetwork.Built.add (SpaceNetwork.Built.add SpaceNetwork.Built.new))

theorem tieNetR_built : SpaceNetwork.Built tieNetR := by
  have h : tieNetR =
      ((((((((SpaceNetwork.new.add_location ⟨0, 0, 0⟩).1.add_location
        ⟨1, 0, 0⟩).1.add_location ⟨0, 1, 0⟩).1.add_location
        ⟨1, 1, 0⟩).1.connect_bidirectional 0 1).2.connect_bidirectional
        0 2).2.connect_bidirectional 1 3).2.connect_bidirectional 2 3).2 := by
    rfl
  rw [h]
  exact SpaceNetwork.Built.connectB (SpaceNetwork.Built.connectB
    (SpaceNetwork.Built.connectB (SpaceNetwork.Built.connectB
      (SpaceNetwork.Built.add (SpaceNetwork.Built.add
        (SpaceNetwork.Built.add (SpaceNetwork.Built.add SpaceNetwork.Built.new)))))))

theorem net2_wf : net2.WF := SpaceNetwork.Built.wf net2_built

theorem tieNetR_wf : tieNetR.WF := SpaceNetwork.Built.wf tieNetR_built

theorem netW_wf : netW.WF := SpaceNetwork.Built.wf netW_built

/-! ## The claims -/

/-- C1: for every well-formed container (the spec's finite-coordinate
premise is idealised by the reals, which carry no infinities or NaN) and
every pair of valid handles, if any directed path from `start` to `goal`
exists then `shortest_route` returns a route that is such a path, whose
reported `total_distance` is the cost of that path and is minimal over all
directed paths, the weight of an edge being the Euclidean distance between
the endpoints' current positions at call time. -/
theorem C1_shortest_route_optimal (net : SpaceNetwork ℝ) (hw : net.WF)
    (start goal : Nat)
    (hs : start < net.locations.length) (hg : goal < net.locations.length)
    (hreach : Reachable net start goal) :
    ∃ r, net.shortest_route start goal = some r ∧
      IsTrailFrom net start goal r.locations ∧
      r.total_distance = trailCost Point3.distance_to net r.locations ∧
      ∀ l, IsTrailFrom net start goal l →
        r.total_distance ≤ trailCost Point3.distance_to net l := by
  obtain ⟨hwlen, _, hwadj⟩ := hw
  have hd : ∀ p q : Point3 ℝ, 0 ≤ Point3.distance_to p q :=
    Point3.distance_to_nonneg
  by_cases hne : start = goal
  · subst hne
    refine ⟨Route.singleton start, ?_, isTrailFrom_single net start, ?_, ?_⟩
    · simp [SpaceNetwork.shortest_route, shortestRouteAux,
        SpaceNetwork.is_valid_of_lt hs]
    · simp [Route.singleton]
    · intro l htl
      simpa [Route.singleton] using trailCost_nonneg hd net l
  · have hnn : shortestRouteAux Point3.distance_to net start goal ≠ none := by
      rw [Ne, shortestRouteAux_none_iff hd hwlen hwadj hs hg]
      exact not_not_intro hreach
    obtain ⟨r, hr⟩ := Option.ne_none_iff_exists'.mp hnn
    obtain ⟨h1, h2, h3⟩ := shortestRouteAux_some_spec hd hwlen hwadj hs hg hne hr
    exact ⟨r, hr, h1, h2, h3⟩

theorem C1_shortest_route_optimal_witness :
    ∃ r, net2.shortest_route 0 1 = some r ∧
      IsTrailFrom net2 0 1 r.locations ∧
      r.total_distance = trailCost Point3.distance_to net2 r.locations ∧
      ∀ l, IsTrailFrom net2 0 1 l →
        r.total_distance ≤ trailCost Point3.distance_to net2 l :=
  C1_shortest_route_optimal net2 net2_wf 0 1 (by norm_num [net2])
    (by norm_num [net2])
    ⟨[0, 1], rfl, rfl, IsTrail.cons (by norm_num [net2]) (IsTrail.single 1)⟩

/-- C2: whenever `shortest_route` returns a route, the reported
`total_distance` equals the sum, recomputed independently left-to-right by
`recompute`, of the distances between each consecutive pair of locations
in the returned sequence. -/
theorem C2_total_distance_recomputed (net : SpaceNetwork ℝ) (hw : net.WF)
    (start goal : Nat) (r : Route ℝ)
    (hr : net.shortest_route start goal = some r) :
    r.total_distance = recompute Point3.distance_to net 0 r.locations := by
  obtain ⟨hwlen, _, hwadj⟩ := hw
  have hd : ∀ p q : Point3 ℝ, 0 ≤ Point3.distance_to p q :=
    Point3.distance_to_nonneg
  unfold SpaceNetwork.shortest_route at hr
  have hs : start < net.locations.length := by
    by_contra hns
    rw [SpaceNetwork.shortestRouteAux_invalid_start hns] at hr
    exact Option.noConfusion hr
  have hg : goal < net.locations.length := by
    by_contra hng
    rw [SpaceNetwork.shortestRouteAux_invalid_goal hng] at hr
    exact Option.noConfusion hr
  by_cases hne : start = goal
  · subst hne
    have hsing : shortestRouteAux Point3.distance_to net start start =
        some (Route.singleton start) := by
      simp [shortestRouteAux, SpaceNetwork.is_valid_of_lt hs]
    rw [hsing] at hr
    obtain rfl := Option.some.inj hr
    rw [recompute_eq_trailCost]
    simp [Route.singleton]
  · obtain ⟨_, h2, _⟩ := shortestRouteAux_some_spec hd hwlen hwadj hs hg hne hr
    rw [h2, recompute_eq_trailCost]
    ring

theorem C2_total_distance_recomputed_witness :
    (⟨[0, 1], 5⟩ : Route ℝ).total_distance =
      recompute Point3.distance_to net2 0 (⟨[0, 1], 5⟩ : Route ℝ).locations :=
  C2_total_distance_recomputed net2 net2_wf 0 1 ⟨[0, 1], 5⟩ net2_eval

/-- C3, counterexample: the spec claims equal-cost frontier entries are
extracted lowest-handle-first (ascending ties).  In the code the reversed
cost comparison is chained with a NON-reversed position comparison
(`other.cost.cmp(&self.cost).then_with(|| self.position.cmp(&other.position))`)
on a max-heap, so among minimal-cost entries the LARGEST handle pops
first: of the equal-cost entries for handles 1 and 2 the pop returns
handle 2, and on the unit square `tieNetR` the returned route is
`[0, 2, 3]` through the larger middle handle 2, although the equal-cost
path `[0, 1, 3]` through the smaller handle 1 exists. -/
theorem C3_counterexample :
    heapPop [(⟨1, 1⟩ : State ℝ), ⟨1, 2⟩] = some (⟨1, 2⟩, [⟨1, 1⟩]) ∧
    tieNetR.shortest_route 0 3 = some ⟨[0, 2, 3], 2⟩ ∧
    IsTrailFrom tieNetR 0 3 [0, 1, 3] ∧
    trailCost Point3.distance_to tieNetR [0, 1, 3] = 2 :=
  ⟨tie_pop, tie_eval, tie_alt.1, tie_alt.2⟩

/-- C3, amended: the frontier extraction pops an entry of minimal
tentative cost, with ties broken towards the LARGEST handle index, and is
deterministic (a function of the heap contents), so for a fixed graph and
query the returned route sequence is uniquely determined. -/
theorem C3_tie_break_descending {l : List (State ℝ)} {s : State ℝ}
    {rest : List (State ℝ)} (h : heapPop l = some (s, rest)) :
    s ∈ l ∧ ∀ t ∈ l, s.cost < t.cost ∨
      (s.cost = t.cost ∧ t.position ≤ s.position) := by
  obtain ⟨h1, _, _, _, h5⟩ := heapPop_spec h
  exact ⟨h1, h5⟩

theorem C3_tie_break_descending_witness :
    (⟨1, 2⟩ : State ℝ) ∈ [(⟨1, 1⟩ : State ℝ), ⟨1, 2⟩] ∧
    ∀ t ∈ [(⟨1, 1⟩ : State ℝ), ⟨1, 2⟩], (⟨1, 2⟩ : State ℝ).cost < t.cost ∨
      ((⟨1, 2⟩ : State ℝ).cost = t.cost ∧
        t.position ≤ (⟨1, 2⟩ : State ℝ).position) :=
  C3_tie_break_descending tie_pop

/-- C4: on a valid handle `x`, `shortest_route x x` returns the singleton
route `[x]` with distance exactly `0`; the result holds for an arbitrary
metric, showing the search loop is bypassed entirely. -/
theorem C4_self_route_singleton (net : SpaceNetwork ℝ) (x : Nat)
    (hx : x < net.locations.length) :
    net.shortest_route x x = some ⟨[x], 0⟩ ∧
    ∀ d : Point3 ℝ → Point3 ℝ → ℝ,
      shortestRouteAux d net x x = some (Route.singleton x) := by
  constructor
  · simp [SpaceNetwork.shortest_route, shortestRouteAux,
      SpaceNetwork.is_valid_of_lt hx, Route.singleton]
  · intro d
    simp [shortestRouteAux, SpaceNetwork.is_valid_of_lt hx]

theorem C4_self_route_singleton_witness :
    netW.shortest_route 0 0 = some ⟨[0], 0⟩ ∧
    ∀ d : Point3 ℝ → Point3 ℝ → ℝ,
      shortestRouteAux d netW 0 0 = some (Route.singleton 0) :=
  C4_self_route_singleton netW 0 (by norm_num [netW])

/-- C5: on valid handles of a well-formed container, `shortest_route`
returns `none` exactly when `goal` is not reachable from `start` through
the directed adjacency relation (with every handle reaching itself). -/
theorem C5_none_iff_unreachable (net : SpaceNetwork ℝ) (hw : net.WF)
    (start goal : Nat)
    (hs : start < net.locations.length) (hg : goal < net.locations.length) :
    (net.shortest_route start goal = none ↔ ¬ Reachable net start goal) := by
  obtain ⟨hwlen, _, hwadj⟩ := hw
  exact shortestRouteAux_none_iff Point3.distance_to_nonneg hwlen hwadj hs hg

theorem C5_none_iff_unreachable_witness :
    (netW.shortest_route 0 1 = none ↔ ¬ Reachable netW 0 1) :=
  C5_none_iff_unreachable netW netW_wf 0 1 (by norm_num [netW])
    (by norm_num [netW])

/-- C6: a handle whose index is at least the location count makes the
read operations (`neighbors`, `location`, `shortest_route` in either
argument) return `none`, and makes the mutation operations
(`move_location`, `connect_directed`, `connect_bidirectional`, either
argument) return the `InvalidHandle` error with the container entirely
unchanged. -/
theorem C6_invalid_handle (net : SpaceNetwork ℝ) (id other : Nat)
    (p : Point3 ℝ) (h : net.locations.length ≤ id) :
    net.neighbors id = none ∧
    net.location id = none ∧
    net.shortest_route id other = none ∧
    net.shortest_route other id = none ∧
    net.move_location id p = (Except.error NetError.invalidHandle, net) ∧
    net.connect_directed id other = (Except.error NetError.invalidHandle, net) ∧
    net.connect_directed other id = (Except.error NetError.invalidHandle, net) ∧
    net.connect_bidirectional id other =
      (Except.error NetError.invalidHandle, net) ∧
    net.connect_bidirectional other id =
      (Except.error NetError.invalidHandle, net) := by
  have h' : ¬ id < net.locations.length := by omega
  exact ⟨SpaceNetwork.neighbors_invalid h', SpaceNetwork.location_invalid h',
    SpaceNetwork.shortestRouteAux_invalid_start h',
    SpaceNetwork.shortestRouteAux_invalid_goal h',
    SpaceNetwork.move_location_invalid h',
    SpaceNetwork.connect_directed_invalid_left h',
    SpaceNetwork.connect_directed_invalid_right h',
    SpaceNetwork.connect_bidirectional_invalid_left h',
    SpaceNetwork.connect_bidirectional_invalid_right h'⟩

theorem C6_invalid_handle_witness :
    netW.neighbors 2 = none ∧
    netW.location 2 = none ∧
    netW.shortest_route 2 0 = none ∧
    netW.shortest_route 0 2 = none ∧
    netW.move_location 2 ⟨5, 5, 5⟩ = (Except.error NetError.invalidHandle, netW) ∧
    netW.connect_directed 2 0 = (Except.error NetError.invalidHandle, netW) ∧
    netW.connect_directed 0 2 = (Except.error NetError.invalidHandle, netW) ∧
    netW.connect_bidirectional 2 0 = (Except.error NetError.invalidHandle, netW) ∧
    netW.connect_bidirectional 0 2 = (Except.error NetError.invalidHandle, netW) :=
  C6_invalid_handle netW 2 0 ⟨5, 5, 5⟩ (by norm_num [netW])

/-- C7: `connect_bidirectional a b` returns the same result and the same
container as `connect_directed a b` followed on success by
`connect_directed b a`; on a well-formed container with valid distinct
handles it succeeds, appending `b` to `a`'s adjacency list and `a` to
`b`'s. -/
theorem C7_bidirectional_eq_directed_twice (net : SpaceNetwork ℝ) (a b : Nat) :
    net.connect_bidirectional a b = SpaceNetwork.connectDirectedTwice net a b ∧
    (net.WF → a < net.locations.length → b < net.locations.length → a ≠ b →
      (net.connect_bidirectional a b).1 = Except.ok () ∧
      (net.connect_bidirectional a b).2.adjacency.getD a [] =
        net.adjacency.getD a [] ++ [b] ∧
      (net.connect_bidirectional a b).2.adjacency.getD b [] =
        net.adjacency.getD b [] ++ [a]) := by
  refine ⟨SpaceNetwork.connect_bidirectional_eq_twice net a b, ?_⟩
  intro hw ha hb hab
  unfold SpaceNetwork.connect_bidirectional
  simp only [SpaceNetwork.is_valid_of_lt ha, SpaceNetwork.is_valid_of_lt hb,
    and_self, not_true_eq_false, if_false, if_neg hab]
  refine ⟨trivial, ?_, ?_⟩
  · rw [getD_listUpdate_ne _ _ _ _ _ (fun e => hab e.symm),
      getD_listUpdate_self _ _ _ _ (by rw [hw.1]; exact ha)]
  · rw [getD_listUpdate_self _ _ _ _
      (by rw [length_listUpdate, hw.1]; exact hb),
      getD_listUpdate_ne _ _ _ _ _ hab]

theorem C7_bidirectional_eq_directed_twice_witness :
    (netW.connect_bidirectional 0 1).1 = Except.ok () ∧
    (netW.connect_bidirectional 0 1).2.adjacency.getD 0 [] =
      netW.adjacency.getD 0 [] ++ [1] ∧
    (netW.connect_bidirectional 0 1).2.adjacency.getD 1 [] =
      netW.adjacency.getD 1 [] ++ [0] :=
  (C7_bidirectional_eq_directed_twice netW 0 1).2 netW_wf (by norm_num [netW])
    (by norm_num [netW]) (by norm_num)

/-- C8: self-connection on a valid handle succeeds and leaves the entire
container (all adjacency lists and all locations) unchanged — a self-edge
is never stored. -/
theorem C8_self_edge_noop (net : SpaceNetwork ℝ) (x : Nat)
    (hx : x < net.locations.length) :
    net.connect_directed x x = (Except.ok (), net) ∧
    net.connect_bidirectional x x = (Except.ok (), net) :=
  ⟨SpaceNetwork.connect_directed_self hx,
    SpaceNetwork.connect_bidirectional_self hx⟩

theorem C8_self_edge_noop_witness :
    netW.connect_directed 0 0 = (Except.ok (), netW) ∧
    netW.connect_bidirectional 0 0 = (Except.ok (), netW) :=
  C8_self_edge_noop netW 0 (by norm_num [netW])

/-- C9: on a well-formed container, `shortest_route` is total for
arbitrary handle arguments: the fully bounds-checked interpreter — which
aborts on any out-of-range vector index and on loop-fuel exhaustion —
never aborts and returns exactly `shortest_route`'s result, so every index
the source performs is in bounds, both loops terminate, and absence of a
route surfaces only as the `none` result.  The source's worry about NaN in
the priority-queue comparison is idealised away soundly: over the reals
(all stored coordinates finite, per the claim's premise) every computed
distance is finite and the order is total. -/
theorem C9_no_panic (net : SpaceNetwork ℝ) (hw : net.WF) (start goal : Nat) :
    shortestRouteChecked Point3.distance_to net start goal =
      some (net.shortest_route start goal) := by
  obtain ⟨hwlen, _, hwadj⟩ := hw
  exact shortestRouteChecked_eq Point3.distance_to_nonneg hwlen hwadj start goal

theorem C9_no_panic_witness :
    shortestRouteChecked Point3.distance_to netW 0 1 =
      some (netW.shortest_route 0 1) :=
  C9_no_panic netW netW_wf 0 1

/-- C10: every container built from the empty network by any sequence of
the public operations satisfies the structural invariant: the locations
and adjacency vectors have equal length, the location stored at index `i`
carries id `i`, and every handle stored in any adjacency list is below the
location count. -/
theorem C10_invariant_preserved (net : SpaceNetwork ℝ)
    (h : SpaceNetwork.Built net) : net.WF :=
  SpaceNetwork.Built.wf h

theorem C10_invariant_preserved_witness : tieNetR.WF :=
  C10_invariant_preserved tieNetR tieNetR_built
